import Mathlib

/-!
# topsort: depth-first topological sort with cycle detection

A shallow embedding of `topsort.go`.

* A Go `map[K]V` is an `AList` (association list with pairwise distinct keys); only lookups,
  insertions and key enumeration are used by the program.
* `Key` is any type with decidable equality and a decidable order `≤` (`cmp.Ordered` without
  floating point NaN); statements that depend on the outcome of sorting assume in addition
  that `≤` is a total order.
* Ranging over a Go map yields its keys in an unspecified order.  `RangeOrder` is the oracle
  that fixes this order: it may answer differently at every call of `visit`, being indexed by
  the recursion path on which the call happens (within one traversal no two calls share a
  path).
* The recursion of `visit` is driven by a fuel counter; `none` means the fuel ran out.
  `Graph.fuel` is shown to be always sufficient.
* Pointers to mutable state (`results`) become explicit state passing: `visit` returns the
  accumulator it leaves behind together with the error, if any.
* The graph is read only by the sorts, so `visit` takes it as a value; `visitS` is the same
  traversal handing on the graph, used to state that a sort leaves the graph as it is.
* `visitSkip` is the variant of `visit` with a fast path for finished keys that the
  specification describes; it is compared with `visit`.
* Two graphs are the same, `Graph.Same`, when they have the same node set and the same edge
  set for every node; association lists also keep an insertion order that Go maps lack.
-/

set_option linter.unusedSectionVars false

namespace topsort

variable {Key : Type} [DecidableEq Key]

/-! ## The ordered set -/

/-- The `orderedset` struct: reverse index, items in insertion order, and a length counter. -/
structure orderedset (Key : Type) where
  indexes : AList (fun _ : Key => Int)
  items : List Key
  length : Int

/-- The function `newOrderedSet`: empty index, no items, length zero. -/
def newOrderedSet : orderedset Key :=
  { indexes := ∅, items := [], length := 0 }

/-- The method `add`: appends an absent item and records its position; the Boolean tells
whether the item was newly inserted. -/
def orderedset.add (s : orderedset Key) (item : Key) : orderedset Key × Bool :=
  match s.indexes.lookup item with
  | some _ => (s, false)
  | none =>
    ({ indexes := s.indexes.insert item s.length,
       items := s.items ++ [item],
       length := s.length + 1 }, true)

/-- The method `copy`: a fresh set into which every item is added in order. -/
def orderedset.copy (s : orderedset Key) : orderedset Key :=
  s.items.foldl (fun clone item => (clone.add item).1) newOrderedSet

/-- The method `index`: recorded position of the item, or `-1`. -/
def orderedset.index (s : orderedset Key) (item : Key) : Int :=
  match s.indexes.lookup item with
  | some index => index
  | none => -1

/-! ## Nodes and graphs -/

/-- The type `nodeimpl`: a `map[Key]bool` holding the targets of a node's outgoing edges. -/
abbrev nodeimpl (Key : Type) := AList (fun _ : Key => Bool)

/-- The method `addEdge`: `n[key] = true`. -/
def nodeimpl.addEdge (n : nodeimpl Key) (key : Key) : nodeimpl Key :=
  n.insert key true

/-- Order in which a `range` over a map delivers its keys.  `enum path keys` is the order
used by the call of `visit` whose recursion path (ending in the visited key) is `path`;
it is some rearrangement of the stored keys. -/
structure RangeOrder (Key : Type) where
  enum : List Key → List Key → List Key
  perm : ∀ path keys, (enum path keys).Perm keys

/-- The method `edges`: the keys of the map, collected in range order. -/
def nodeimpl.edges (n : nodeimpl Key) (ro : RangeOrder Key) (path : List Key) : List Key :=
  ro.enum path n.keys

/-- The `Graph` struct: node key to the node's edge map. -/
structure Graph (Key : Type) where
  nodes : AList (fun _ : Key => nodeimpl Key)

/-- The function `NewGraph`: no nodes. -/
def NewGraph : Graph Key :=
  { nodes := ∅ }

/-- The method `ContainsNode`. -/
def Graph.ContainsNode (g : Graph Key) (key : Key) : Bool :=
  (g.nodes.lookup key).isSome

/-- The method `AddNode`: an absent key gets an empty edge map. -/
def Graph.AddNode (g : Graph Key) (key : Key) : Graph Key :=
  if !g.ContainsNode key then { nodes := g.nodes.insert key ∅ } else g

/-- The method `getOrAddNode`: the graph after the call and the edge map of `node`. -/
def Graph.getOrAddNode (g : Graph Key) (node : Key) : Graph Key × nodeimpl Key :=
  match g.nodes.lookup node with
  | some n => (g, n)
  | none => ({ nodes := g.nodes.insert node ∅ }, ∅)

/-- The Go expression `g.nodes[key]`: a missing key yields the nil (empty) map. -/
def Graph.node (g : Graph Key) (key : Key) : nodeimpl Key :=
  (g.nodes.lookup key).getD ∅

/-- The method `AddEdge` (`src`, `dst` for the parameters `from`, `to`).  `f` in the source
is a reference to the map stored under `from`, which `AddNode(to)` leaves in place, so the
insertion into `f` is an update of that entry. -/
def Graph.AddEdge (g : Graph Key) (src dst : Key) : Graph Key :=
  let r := g.getOrAddNode src
  let f := r.2
  let g2 := r.1.AddNode dst
  { nodes := g2.nodes.insert src (f.addEdge dst) }

/-! ## The traversal -/


/-- Formatting of a key by `fmt.Sprintf("%v", k)`. -/
class Sprintf (Key : Type) where
  sprint : Key → String

/-- A string key is printed as it is. -/
instance : Sprintf String := ⟨fun k => k⟩

/-- A natural number key is printed in decimal. -/
instance : Sprintf Nat := ⟨Nat.repr⟩

/-- Go's `strings.Join`. -/
def stringsJoin (elems : List String) (sep : String) : String :=
  match elems with
  | [] => ""
  | first :: rest => rest.foldl (fun b s => b ++ sep ++ s) first

/-- The error value built in `visit`.  The Go error holds the text `msg` only; `cycle` is
the local variable `cycle` from which the text was formatted. -/
structure CycleError (Key : Type) where
  cycle : List Key
  msg : String
  deriving DecidableEq

section Traversal

variable [LE Key] [DecidableRel (fun a b : Key => a ≤ b)] [Sprintf Key]

/-- Result of a call of `visit`: the `results` accumulator afterwards and the error. -/
abbrev VisitResult (Key : Type) := orderedset Key × Option (CycleError Key)

/-- The loop `for _, edge := range edges` of `visit`, with `f` the recursive call.  It stops
at the first error. -/
def forEdges (f : Key → orderedset Key → Option (VisitResult Key)) :
    List Key → orderedset Key → Option (VisitResult Key)
  | [], results => some (results, none)
  | edge :: rest, results =>
    match f edge results with
    | none => none
    | some (results, some err) => some (results, some err)
    | some (results, none) => forEdges f rest results

/-- The method `visit`.  `visited = none` is the nil pointer of the outermost call. -/
def Graph.visit (g : Graph Key) (ro : RangeOrder Key) :
    Nat → Key → orderedset Key → Option (orderedset Key) → Bool → Option (VisitResult Key)
  | 0, _, _, _, _ => none
  | fuel + 1, key, results, visited, stable =>
    let visited := visited.getD newOrderedSet
    let (visited, added) := visited.add key
    if !added then
      let index := visited.index key
      let cycle := visited.items.drop index.toNat ++ [key]
      let strs := cycle.map Sprintf.sprint
      some (results, some { cycle := cycle, msg := "cycle error: " ++ stringsJoin strs " -> " })
    else
      let n := g.node key
      let edges := n.edges ro visited.items
      let edges := if stable then edges.insertionSort (· ≤ ·) else edges
      match forEdges (fun edge results => g.visit ro fuel edge results (some visited.copy) stable)
          edges results with
      | none => none
      | some (results, some err) => some (results, some err)
      | some (results, none) => some ((results.add key).1, none)

/-- Recursion depth that no traversal of `g` exceeds: one level per key that occurs in the
graph as a node or as an edge target, one for a start key that does not occur, and one for
the call that detects a repeated key. -/
def Graph.fuel (g : Graph Key) : Nat :=
  g.nodes.keys.length + (g.nodes.keys.map (fun k => (g.node k).keys.length)).sum + 2

/-- The method `doTopSort`: `(nil, err)` on error, `(results.items, nil)` otherwise. -/
def Graph.doTopSort (g : Graph Key) (ro : RangeOrder Key) (key : Key) (stable : Bool) :
    Option (List Key × Option (CycleError Key)) :=
  match g.visit ro g.fuel key newOrderedSet none stable with
  | none => none
  | some (_, some err) => some ([], some err)
  | some (results, none) => some (results.items, none)

/-- The method `TopSort`. -/
def Graph.TopSort (g : Graph Key) (ro : RangeOrder Key) (key : Key) :
    Option (List Key × Option (CycleError Key)) :=
  g.doTopSort ro key false

/-- The method `StableTopSort`. -/
def Graph.StableTopSort (g : Graph Key) (ro : RangeOrder Key) (key : Key) :
    Option (List Key × Option (CycleError Key)) :=
  g.doTopSort ro key true

end Traversal

/-! ## Vocabulary of the statements -/

/-- The graph has the edge `u -> v`. -/
def Graph.HasEdge (g : Graph Key) (u v : Key) : Prop :=
  v ∈ (g.node u).keys

instance (g : Graph Key) (u v : Key) : Decidable (g.HasEdge u v) :=
  inferInstanceAs (Decidable (v ∈ (g.node u).keys))

/-- Reachability by one or more edges. -/
def Graph.Reach (g : Graph Key) (u v : Key) : Prop :=
  Relation.TransGen g.HasEdge u v

/-- Some cycle can be reached from `s`. -/
def Graph.CycleFrom (g : Graph Key) (s : Key) : Prop :=
  ∃ c, Relation.ReflTransGen g.HasEdge s c ∧ Relation.TransGen g.HasEdge c c

/-- Range order that delivers the keys as stored. -/
def RangeOrder.stored : RangeOrder Key :=
  { enum := fun _ keys => keys, perm := fun _ _ => List.Perm.refl _ }

/-- Range order that delivers the keys in reverse. -/
def RangeOrder.reversed : RangeOrder Key :=
  { enum := fun _ keys => keys.reverse, perm := fun _ keys => List.reverse_perm keys }

/-- The graph built by adding the listed edges in order to a new graph. -/
def ofEdges (es : List (Key × Key)) : Graph Key :=
  es.foldl (fun g e => g.AddEdge e.1 e.2) NewGraph

/-! ## Abstraction of the traversal to plain lists

The ordered sets handled by `visit` always satisfy `orderedset.wf`; on such sets `add` is
`addItem` on the item list.  `visitL` is `visit` read on item lists, and `visit_refines`
below connects the two. -/

/-- Representation invariant of an ordered set: distinct items, `length` counts them, and
`indexes` maps exactly the items to their positions. -/
def orderedset.wf (s : orderedset Key) : Prop :=
  s.items.Nodup ∧ s.length = (s.items.length : Int) ∧
    ∀ k, s.indexes.lookup k = if k ∈ s.items then some (s.items.indexOf k : Int) else none

/-- Appending a key that is not yet listed. -/
def addItem (l : List Key) (k : Key) : List Key :=
  if k ∈ l then l else l ++ [k]

section TraversalOnLists

variable [LE Key] [DecidableRel (fun a b : Key => a ≤ b)] [Sprintf Key]

/-- Outcome of a traversal on item lists: accumulator and detected cycle. -/
abbrev ListResult (Key : Type) := List Key × Option (List Key)

/-- The loop `forEdges` on item lists. -/
def forEdgesL (f : Key → List Key → Option (ListResult Key)) :
    List Key → List Key → Option (ListResult Key)
  | [], results => some (results, none)
  | edge :: rest, results =>
    match f edge results with
    | none => none
    | some (results, some c) => some (results, some c)
    | some (results, none) => forEdgesL f rest results

/-- The edge list that `visit` walks through for `key` when its path (with `key`) is `path`. -/
def Graph.edgeList (g : Graph Key) (ro : RangeOrder Key) (stable : Bool) (path : List Key)
    (key : Key) : List Key :=
  if stable then ((g.node key).edges ro path).insertionSort (· ≤ ·)
  else (g.node key).edges ro path

/-- The traversal `visit` on item lists; `path` is the item list of `visited`. -/
def Graph.visitL (g : Graph Key) (ro : RangeOrder Key) (stable : Bool) :
    Nat → Key → List Key → List Key → Option (ListResult Key)
  | 0, _, _, _ => none
  | fuel + 1, key, results, path =>
    if key ∈ path then some (results, some (path.drop (path.indexOf key) ++ [key]))
    else
      match forEdgesL (fun edge results => g.visitL ro stable fuel edge results (path ++ [key]))
          (g.edgeList ro stable (path ++ [key]) key) results with
      | none => none
      | some (results, some c) => some (results, some c)
      | some (results, none) => some (addItem results key, none)

end TraversalOnLists

/-- A result of `visit` matches a result on item lists. -/
def Refines : Option (VisitResult Key) → Option (ListResult Key) → Prop
  | none, none => True
  | some (R, e), some (r, c) => R.wf ∧ R.items = r ∧ e.map CycleError.cycle = c
  | _, _ => False

/-- Every edge out of a listed key leads to a key listed earlier. -/
def Closed (g : Graph Key) (l : List Key) : Prop :=
  ∀ u ∈ l, ∀ v, g.HasEdge u v → v ∈ l ∧ l.indexOf v < l.indexOf u

/-- Effect of a successful visit of `key` on the accumulator: it grows at the end, then
holds `key`, gains only keys that can be reached from `key`, and stays duplicate free and
closed. -/
def Good (g : Graph Key) (key : Key) (r r' : List Key) : Prop :=
  r <+: r' ∧ key ∈ r' ∧ (∀ x ∈ r', x ∈ r ∨ Relation.ReflTransGen g.HasEdge key x) ∧
    (r.Nodup → r'.Nodup) ∧ (Closed g r → Closed g r')

/-- Effect of a successful run of the loop over `es` on the accumulator. -/
def LoopGood (g : Graph Key) (es : List Key) (r r' : List Key) : Prop :=
  r <+: r' ∧ (∀ e ∈ es, e ∈ r') ∧
    (∀ x ∈ r', x ∈ r ∨ ∃ e ∈ es, Relation.ReflTransGen g.HasEdge e x) ∧
    (r.Nodup → r'.Nodup) ∧ (Closed g r → Closed g r')

/-- The recursion path `path` followed by `key` is a walk along edges from keys that `start`
reaches, and `path` repeats no key. -/
def PathOK (g : Graph Key) (start : Key) (path : List Key) (key : Key) : Prop :=
  List.Chain' g.HasEdge (path ++ [key]) ∧ path.Nodup ∧
    ∀ x ∈ path ++ [key], Relation.ReflTransGen g.HasEdge start x

/-- The key list `c` is a cycle of the graph that `start` reaches: at least two entries,
equal first and last entry, no other repetition, consecutive entries joined by edges. -/
def CycleOK (g : Graph Key) (start : Key) (c : List Key) : Prop :=
  2 ≤ c.length ∧ c.head? = c.getLast? ∧ c.dropLast.Nodup ∧ List.Chain' g.HasEdge c ∧
    ∃ h, c.head? = some h ∧ Relation.ReflTransGen g.HasEdge start h

/-- The start key followed by all edge targets stored in the graph. -/
def Graph.universe (g : Graph Key) (start : Key) : List Key :=
  start :: g.nodes.keys.flatMap (fun k => (g.node k).keys)

/-! ## Reference for the stable sort -/

/-- Reference of the stable sort, following the specification: the naive post-order listing
`post(k) = post(c1) ++ ... ++ post(cn) ++ [k]`, where `c1 < ... < cn` are the edge targets
of `k` in ascending key order.  The first argument bounds the depth of the listing. -/
def Graph.post [LE Key] [DecidableRel (fun a b : Key => a ≤ b)] (g : Graph Key) :
    Nat → Key → List Key
  | 0, _ => []
  | depth + 1, k =>
    ((g.node k).keys.insertionSort (fun a b => a ≤ b)).flatMap (g.post depth) ++ [k]

/-- Reference of the stable sort, following the specification: keeping only the first
occurrence of each key. -/
def keepFirst : List Key → List Key
  | [] => []
  | x :: l => x :: (keepFirst l).filter (fun y => y ≠ x)

/-- The graph of `TestStableSort` with the keys `a, b, c, d, x, y, z` numbered
`1, 2, 3, 4, 24, 25, 26`. -/
def stableTestGraph : Graph Nat :=
  ofEdges [(1, 2), (1, 3), (1, 4), (2, 24), (3, 25), (4, 26)]

/-! ## Building graphs -/

/-- A call that changes a graph. -/
inductive Op (Key : Type) where
  | addNode (key : Key)
  | addEdge (src dst : Key)

/-- Effect of one call on the graph. -/
def Graph.apply (g : Graph Key) : Op Key → Graph Key
  | Op.addNode key => g.AddNode key
  | Op.addEdge src dst => g.AddEdge src dst

/-- The graph reached from `NewGraph` by the listed calls, in order. -/
def build (ops : List (Op Key)) : Graph Key :=
  ops.foldl Graph.apply NewGraph

/-- Both ends of every recorded edge are nodes of the graph. -/
def Graph.WellFormed (g : Graph Key) : Prop :=
  ∀ u v, g.HasEdge u v → g.ContainsNode u = true ∧ g.ContainsNode v = true

/-! ## Building ordered sets -/

/-- A call on an ordered set that yields an ordered set. -/
inductive SetOp (Key : Type) where
  | add (item : Key)
  | copy

/-- Effect of one call: the set left by `add`, or the clone returned by `copy`. -/
def orderedset.apply (s : orderedset Key) : SetOp Key → orderedset Key
  | SetOp.add item => (s.add item).1
  | SetOp.copy => s.copy

/-- The ordered set reached from `newOrderedSet` by the listed calls, in order. -/
def buildSet (ops : List (SetOp Key)) : orderedset Key :=
  ops.foldl orderedset.apply newOrderedSet

/-- The representation invariant in terms of the methods: no duplicate items, `length` is
the number of items, and `index` gives the position of a present key and `-1` for an absent
one. -/
def orderedset.RepInv (s : orderedset Key) : Prop :=
  s.items.Nodup ∧ s.length = (s.items.length : Int) ∧
    (∀ k ∈ s.items, ∃ i : Nat, s.index k = (i : Int) ∧ s.items[i]? = some k) ∧
    (∀ k, k ∉ s.items → s.index k = -1)

/-- The ordered set holding `a`, then `b`. -/
def setAB : orderedset String :=
  buildSet [SetOp.add "a", SetOp.add "b"]

/-- Two graphs have the same node set and the same edge set for every node. -/
def Graph.Same (g g' : Graph Key) : Prop :=
  ∀ k, g.ContainsNode k = g'.ContainsNode k ∧ ∀ v, g.HasEdge k v ↔ g'.HasEdge k v

/-- The graph of `TestNonStable` (and, with string keys, of `TestStableSort`). -/
def nonStableTestGraph : Graph String :=
  ofEdges [("a", "b"), ("a", "c"), ("a", "d"), ("b", "x"), ("c", "y"), ("d", "z")]

/-! ## The traversal with a fast path for finished keys -/

section TraversalSkip

variable [LE Key] [DecidableRel (fun a b : Key => a ≤ b)] [Sprintf Key]

/-- The variant of `visit` described in the specification ("skip if already in results"):
`visit` with one change, on entry a key that is already in the results accumulator returns
success at once. -/
def Graph.visitSkip (g : Graph Key) (ro : RangeOrder Key) :
    Nat → Key → orderedset Key → Option (orderedset Key) → Bool → Option (VisitResult Key)
  | 0, _, _, _, _ => none
  | fuel + 1, key, results, visited, stable =>
    if results.index key ≠ -1 then some (results, none)
    else
      let visited := visited.getD newOrderedSet
      let (visited, added) := visited.add key
      if !added then
        let index := visited.index key
        let cycle := visited.items.drop index.toNat ++ [key]
        let strs := cycle.map Sprintf.sprint
        some (results, some { cycle := cycle, msg := "cycle error: " ++ stringsJoin strs " -> " })
      else
        let n := g.node key
        let edges := n.edges ro visited.items
        let edges := if stable then edges.insertionSort (· ≤ ·) else edges
        match forEdges
            (fun edge results => g.visitSkip ro fuel edge results (some visited.copy) stable)
            edges results with
        | none => none
        | some (results, some err) => some (results, some err)
        | some (results, none) => some ((results.add key).1, none)

/-- The method `doTopSort` on top of `visitSkip`. -/
def Graph.doTopSortSkip (g : Graph Key) (ro : RangeOrder Key) (key : Key) (stable : Bool) :
    Option (List Key × Option (CycleError Key)) :=
  match g.visitSkip ro g.fuel key newOrderedSet none stable with
  | none => none
  | some (_, some err) => some ([], some err)
  | some (results, none) => some (results.items, none)

/-- The method `TopSort` on top of `visitSkip`. -/
def Graph.TopSortSkip (g : Graph Key) (ro : RangeOrder Key) (key : Key) :
    Option (List Key × Option (CycleError Key)) :=
  g.doTopSortSkip ro key false

/-- The method `StableTopSort` on top of `visitSkip`. -/
def Graph.StableTopSortSkip (g : Graph Key) (ro : RangeOrder Key) (key : Key) :
    Option (List Key × Option (CycleError Key)) :=
  g.doTopSortSkip ro key true

/-- The traversal `visitSkip` on item lists. -/
def Graph.visitSkipL (g : Graph Key) (ro : RangeOrder Key) (stable : Bool) :
    Nat → Key → List Key → List Key → Option (ListResult Key)
  | 0, _, _, _ => none
  | fuel + 1, key, results, path =>
    if key ∈ results then some (results, none)
    else if key ∈ path then some (results, some (path.drop (path.indexOf key) ++ [key]))
    else
      match forEdgesL
          (fun edge results => g.visitSkipL ro stable fuel edge results (path ++ [key]))
          (g.edgeList ro stable (path ++ [key]) key) results with
      | none => none
      | some (results, some c) => some (results, some c)
      | some (results, none) => some (addItem results key, none)

end TraversalSkip

/-! ## The traversal with the graph as threaded state

The sort methods have a pointer receiver.  Here every step of the traversal hands on the
graph it leaves behind, so that the effect of a sort on the graph can be stated. -/

section TraversalState

variable [LE Key] [DecidableRel (fun a b : Key => a ≤ b)] [Sprintf Key]

/-- The Go expression `g.nodes[key]` as a step on the graph: indexing a map yields the
stored value, or the nil map for a missing key, and stores nothing. -/
def Graph.readNode (g : Graph Key) (key : Key) : Graph Key × nodeimpl Key :=
  (g, g.node key)

/-- Result of a call of `visit` with the graph left behind in front. -/
abbrev StateResult (Key : Type) := Graph Key × orderedset Key × Option (CycleError Key)

/-- The loop of `visit` over the edges, handing on the graph. -/
def forEdgesS (f : Key → Graph Key → orderedset Key → Option (StateResult Key)) :
    List Key → Graph Key → orderedset Key → Option (StateResult Key)
  | [], g, results => some (g, results, none)
  | edge :: rest, g, results =>
    match f edge g results with
    | none => none
    | some (g, results, some err) => some (g, results, some err)
    | some (g, results, none) => forEdgesS f rest g results

/-- The method `visit`, handing on the graph.  The slice sorted by `slices.Sort` is the one
freshly built by `edges`, not the map. -/
def Graph.visitS (ro : RangeOrder Key) :
    Nat → Graph Key → Key → orderedset Key → Option (orderedset Key) → Bool →
      Option (StateResult Key)
  | 0, _, _, _, _, _ => none
  | fuel + 1, g, key, results, visited, stable =>
    let visited := visited.getD newOrderedSet
    let (visited, added) := visited.add key
    if !added then
      let index := visited.index key
      let cycle := visited.items.drop index.toNat ++ [key]
      let strs := cycle.map Sprintf.sprint
      some (g, results,
        some { cycle := cycle, msg := "cycle error: " ++ stringsJoin strs " -> " })
    else
      let (g, n) := g.readNode key
      let edges := n.edges ro visited.items
      let edges := if stable then edges.insertionSort (· ≤ ·) else edges
      match forEdgesS
          (fun edge g results => Graph.visitS ro fuel g edge results (some visited.copy) stable)
          edges g results with
      | none => none
      | some (g, results, some err) => some (g, results, some err)
      | some (g, results, none) => some (g, (results.add key).1, none)

/-- The method `doTopSort`, returning the graph left behind with its two results. -/
def Graph.doTopSortS (g : Graph Key) (ro : RangeOrder Key) (key : Key) (stable : Bool) :
    Option (Graph Key × List Key × Option (CycleError Key)) :=
  match Graph.visitS ro g.fuel g key newOrderedSet none stable with
  | none => none
  | some (g, _, some err) => some (g, [], some err)
  | some (g, results, none) => some (g, results.items, none)

/-- The method `TopSort`, returning the graph left behind with its two results. -/
def Graph.TopSortS (g : Graph Key) (ro : RangeOrder Key) (key : Key) :
    Option (Graph Key × List Key × Option (CycleError Key)) :=
  g.doTopSortS ro key false

/-- The method `StableTopSort`, returning the graph left behind with its two results. -/
def Graph.StableTopSortS (g : Graph Key) (ro : RangeOrder Key) (key : Key) :
    Option (Graph Key × List Key × Option (CycleError Key)) :=
  g.doTopSortS ro key true

end TraversalState

/-! ## Ordered sets -/

theorem newOrderedSet_wf : (newOrderedSet : orderedset Key).wf := by
  refine ⟨List.nodup_nil, rfl, fun k => ?_⟩
  simp [newOrderedSet]

theorem add_of_mem {s : orderedset Key} (h : s.wf) {k : Key} (hk : k ∈ s.items) :
    s.add k = (s, false) := by
  have h3 := h.2.2 k
  simp only [hk, if_true] at h3
  simp [orderedset.add, h3]

theorem add_of_not_mem {s : orderedset Key} (h : s.wf) {k : Key} (hk : k ∉ s.items) :
    (s.add k).2 = true ∧ (s.add k).1.items = s.items ++ [k] ∧ (s.add k).1.wf := by
  have h3 := h.2.2 k
  simp only [hk, if_false] at h3
  simp only [orderedset.add, h3, true_and]
  refine ⟨List.Nodup.append h.1 (List.nodup_singleton k) (by simpa using hk), ?_, fun k' => ?_⟩
  · simp [h.2.1]
  · by_cases hkk : k' = k
    · subst hkk
      simp [AList.lookup_insert, List.indexOf_append_of_not_mem hk, h.2.1]
    · rw [AList.lookup_insert_ne hkk, h.2.2 k']
      by_cases hm : k' ∈ s.items
      · simp [hm, List.indexOf_append_of_mem hm]
      · simp [hm, hkk]

theorem add_items {s : orderedset Key} (h : s.wf) (k : Key) :
    (s.add k).1.items = addItem s.items k ∧ (s.add k).1.wf := by
  by_cases hk : k ∈ s.items
  · rw [add_of_mem h hk]
    exact ⟨by simp [addItem, hk], h⟩
  · obtain ⟨-, h2, h3⟩ := add_of_not_mem h hk
    exact ⟨by simp [addItem, hk, h2], h3⟩

theorem index_of_mem {s : orderedset Key} (h : s.wf) {k : Key} (hk : k ∈ s.items) :
    s.index k = (s.items.indexOf k : Int) := by
  have h3 := h.2.2 k
  simp only [hk, if_true] at h3
  simp [orderedset.index, h3]

theorem foldl_add {l : List Key} : ∀ (c : orderedset Key), c.wf → (c.items ++ l).Nodup →
    (l.foldl (fun clone item => (clone.add item).1) c).wf ∧
      (l.foldl (fun clone item => (clone.add item).1) c).items = c.items ++ l := by
  induction l with
  | nil => intro c hc _; simpa using hc
  | cons x l ih =>
    intro c hc hnd
    have hx : x ∉ c.items := by
      intro hx
      have := (List.nodup_append.1 hnd).2.2 hx
      simp at this
    obtain ⟨-, h2, h3⟩ := add_of_not_mem hc hx
    have hnd' : ((c.add x).1.items ++ l).Nodup := by simpa [h2] using hnd
    obtain ⟨i1, i2⟩ := ih (c.add x).1 h3 hnd'
    exact ⟨i1, by simpa [h2] using i2⟩

theorem copy_wf_items {s : orderedset Key} (h : s.items.Nodup) :
    s.copy.wf ∧ s.copy.items = s.items := by
  have := foldl_add (l := s.items) newOrderedSet newOrderedSet_wf (by simpa [newOrderedSet] using h)
  simpa [orderedset.copy, newOrderedSet] using this

/-! ## Graph construction -/

theorem containsNode_iff (g : Graph Key) (k : Key) : g.ContainsNode k = true ↔ k ∈ g.nodes := by
  unfold Graph.ContainsNode
  exact AList.lookup_isSome

theorem node_of_not_mem (g : Graph Key) {k : Key} (h : k ∉ g.nodes) : g.node k = ∅ := by
  unfold Graph.node
  rw [AList.lookup_eq_none.2 h]
  rfl

theorem hasEdge_mem (g : Graph Key) {u v : Key} (h : g.HasEdge u v) : u ∈ g.nodes := by
  by_contra hu
  unfold Graph.HasEdge at h
  rw [node_of_not_mem g hu] at h
  simp at h

theorem containsNode_AddNode (g : Graph Key) (k k' : Key) :
    (g.AddNode k).ContainsNode k' = true ↔ k' = k ∨ g.ContainsNode k' = true := by
  unfold Graph.AddNode
  by_cases hc : g.ContainsNode k = true
  · simp only [hc, Bool.not_true, Bool.false_eq_true, if_false]
    constructor
    · exact Or.inr
    · rintro (rfl | h)
      · exact hc
      · exact h
  · simp only [hc, Bool.not_false, if_true]
    rw [containsNode_iff, containsNode_iff]
    exact AList.mem_insert _

theorem node_AddNode (g : Graph Key) (k k' : Key) : (g.AddNode k).node k' = g.node k' := by
  unfold Graph.AddNode
  by_cases hc : g.ContainsNode k = true
  · simp [hc]
  · simp only [hc, Bool.not_false, if_true]
    have hk : k ∉ g.nodes := fun h => hc ((containsNode_iff g k).2 h)
    by_cases hkk : k' = k
    · subst hkk
      rw [node_of_not_mem g hk]
      unfold Graph.node
      rw [AList.lookup_insert]
      rfl
    · unfold Graph.node
      rw [AList.lookup_insert_ne hkk]

theorem getOrAddNode_fst (g : Graph Key) (k : Key) : (g.getOrAddNode k).1 = g.AddNode k := by
  unfold Graph.getOrAddNode Graph.AddNode Graph.ContainsNode
  rcases h : g.nodes.lookup k with _ | n <;> simp

theorem getOrAddNode_snd (g : Graph Key) (k : Key) : (g.getOrAddNode k).2 = g.node k := by
  unfold Graph.getOrAddNode Graph.node
  rcases h : g.nodes.lookup k with _ | n <;> simp

theorem containsNode_AddEdge (g : Graph Key) (s d k : Key) :
    (g.AddEdge s d).ContainsNode k = true ↔ k = s ∨ k = d ∨ g.ContainsNode k = true := by
  unfold Graph.AddEdge
  rw [containsNode_iff]
  simp only [getOrAddNode_fst]
  rw [AList.mem_insert, ← containsNode_iff, containsNode_AddNode, containsNode_AddNode]
  constructor
  · rintro (h | h | h | h)
    · exact Or.inl h
    · exact Or.inr (Or.inl h)
    · exact Or.inl h
    · exact Or.inr (Or.inr h)
  · rintro (h | h | h)
    · exact Or.inl h
    · exact Or.inr (Or.inl h)
    · exact Or.inr (Or.inr (Or.inr h))

theorem node_AddEdge (g : Graph Key) (s d k : Key) :
    (g.AddEdge s d).node k = if k = s then (g.node s).addEdge d else g.node k := by
  unfold Graph.AddEdge
  simp only [getOrAddNode_fst, getOrAddNode_snd]
  by_cases hk : k = s
  · subst hk
    simp only [if_true]
    unfold Graph.node
    rw [AList.lookup_insert]
    rfl
  · simp only [hk, if_false]
    rw [← node_AddNode g s k, ← node_AddNode (g.AddNode s) d k]
    unfold Graph.node
    rw [AList.lookup_insert_ne hk]

theorem hasEdge_AddNode (g : Graph Key) (k u v : Key) :
    (g.AddNode k).HasEdge u v ↔ g.HasEdge u v := by
  unfold Graph.HasEdge
  rw [node_AddNode]

theorem hasEdge_AddEdge (g : Graph Key) (s d u v : Key) :
    (g.AddEdge s d).HasEdge u v ↔ (u = s ∧ v = d) ∨ g.HasEdge u v := by
  unfold Graph.HasEdge
  rw [node_AddEdge]
  by_cases hu : u = s
  · subst hu
    simp only [if_true, true_and]
    unfold nodeimpl.addEdge
    rw [← AList.mem_keys, AList.mem_insert, AList.mem_keys]
  · simp [hu]

theorem wellFormed_NewGraph : (NewGraph : Graph Key).WellFormed := by
  intro u v h
  exact absurd (hasEdge_mem _ h) (by simp [NewGraph])

theorem wellFormed_AddNode {g : Graph Key} (h : g.WellFormed) (k : Key) :
    (g.AddNode k).WellFormed := by
  intro u v huv
  rw [hasEdge_AddNode] at huv
  obtain ⟨h1, h2⟩ := h u v huv
  exact ⟨(containsNode_AddNode g k u).2 (Or.inr h1), (containsNode_AddNode g k v).2 (Or.inr h2)⟩

theorem wellFormed_AddEdge {g : Graph Key} (h : g.WellFormed) (s d : Key) :
    (g.AddEdge s d).WellFormed := by
  intro u v huv
  rw [containsNode_AddEdge, containsNode_AddEdge]
  rcases (hasEdge_AddEdge g s d u v).1 huv with ⟨rfl, rfl⟩ | h0
  · exact ⟨Or.inl rfl, Or.inr (Or.inl rfl)⟩
  · obtain ⟨h1, h2⟩ := h u v h0
    exact ⟨Or.inr (Or.inr h1), Or.inr (Or.inr h2)⟩

theorem wellFormed_foldl (ops : List (Op Key)) :
    ∀ g : Graph Key, g.WellFormed → (ops.foldl Graph.apply g).WellFormed := by
  induction ops with
  | nil => intro g h; exact h
  | cons op ops ih =>
    intro g h
    refine ih (g.apply op) ?_
    cases op with
    | addNode key => exact wellFormed_AddNode h key
    | addEdge src dst => exact wellFormed_AddEdge h src dst

/-- C10. Graph well-formedness: in every graph reached from `NewGraph` by a sequence of
`AddNode` and `AddEdge` calls, the source and the target of every recorded edge are nodes of
the graph; and after `AddEdge(src, dst)` on any graph, `src` and `dst` are nodes and
`dst` is in the edge set of `src`. -/
theorem graph_well_formed (ops : List (Op Key)) (g : Graph Key) (src dst : Key) :
    (∀ u v, (build ops).HasEdge u v →
        (build ops).ContainsNode u = true ∧ (build ops).ContainsNode v = true) ∧
      (g.AddEdge src dst).ContainsNode src = true ∧
      (g.AddEdge src dst).ContainsNode dst = true ∧
      (g.AddEdge src dst).HasEdge src dst := by
  refine ⟨wellFormed_foldl ops NewGraph wellFormed_NewGraph, ?_, ?_, ?_⟩
  · exact (containsNode_AddEdge g src dst src).2 (Or.inl rfl)
  · exact (containsNode_AddEdge g src dst dst).2 (Or.inr (Or.inl rfl))
  · exact (hasEdge_AddEdge g src dst src dst).2 (Or.inl ⟨rfl, rfl⟩)

/-! ## `visit` and its reading on item lists -/

theorem forEdges_refines (f : Key → orderedset Key → Option (VisitResult Key))
    (fL : Key → List Key → Option (ListResult Key))
    (hf : ∀ e R, R.wf → Refines (f e R) (fL e R.items)) :
    ∀ (es : List Key) (R : orderedset Key), R.wf →
      Refines (forEdges f es R) (forEdgesL fL es R.items) := by
  intro es
  induction es with
  | nil => intro R hR; exact ⟨hR, rfl, rfl⟩
  | cons e es ih =>
    intro R hR
    have h := hf e R hR
    simp only [forEdges, forEdgesL]
    rcases hx : f e R with _ | ⟨R', _ | err⟩ <;>
      rcases hy : fL e R.items with _ | ⟨r', _ | c⟩ <;>
      rw [hx, hy] at h <;> simp only [Refines, Option.map] at h ⊢
    · obtain ⟨h1, h2, -⟩ := h
      subst h2
      exact ih R' h1
    · exact absurd h.2.2 (by simp)
    · exact absurd h.2.2 (by simp)
    · exact h

section TraversalProofs

variable [LE Key] [DecidableRel (fun a b : Key => a ≤ b)] [Sprintf Key]

theorem visit_refines (g : Graph Key) (ro : RangeOrder Key) (stable : Bool) :
    ∀ (fuel : Nat) (key : Key) (R : orderedset Key) (visited : Option (orderedset Key)),
      R.wf → (∀ P, visited = some P → P.wf) →
      Refines (g.visit ro fuel key R visited stable)
        (g.visitL ro stable fuel key R.items (visited.getD newOrderedSet).items) := by
  intro fuel
  induction fuel with
  | zero => intro key R visited _ _; simp [Graph.visit, Graph.visitL, Refines]
  | succ fuel ih =>
    intro key R visited hR hP
    have hV : (visited.getD newOrderedSet).wf := by
      cases visited with
      | none => exact newOrderedSet_wf
      | some P => exact hP P rfl
    rw [Graph.visit, Graph.visitL]
    generalize visited.getD newOrderedSet = V at hV
    by_cases hk : key ∈ V.items
    · have hidx : (V.index key).toNat = V.items.indexOf key := by
        rw [index_of_mem hV hk]; simp
      simp only [add_of_mem hV hk, hk, if_true, hidx]
      exact ⟨hR, rfl, rfl⟩
    · obtain ⟨a1, a2, a3⟩ := add_of_not_mem hV hk
      have hc := copy_wf_items a3.1
      have hf : ∀ e R', R'.wf →
          Refines (g.visit ro fuel e R' (some (V.add key).1.copy) stable)
            (g.visitL ro stable fuel e R'.items (V.items ++ [key])) := by
        intro e R' hR'
        have := ih e R' (some (V.add key).1.copy) hR' (fun P hPe => by
          cases hPe; exact hc.1)
        simpa [hc.2, a2] using this
      have hloop := forEdges_refines
        (fun edge results => g.visit ro fuel edge results (some (V.add key).1.copy) stable)
        (fun edge results => g.visitL ro stable fuel edge results (V.items ++ [key]))
        hf (g.edgeList ro stable (V.items ++ [key]) key) R hR
      have hedges : (if stable = true then
          List.insertionSort (fun x1 x2 => x1 ≤ x2) ((g.node key).edges ro (V.items ++ [key]))
          else (g.node key).edges ro (V.items ++ [key])) =
          g.edgeList ro stable (V.items ++ [key]) key := rfl
      simp only [hk, if_false, a1, a2, Bool.not_true, Bool.false_eq_true, hedges]
      rcases hx : forEdges (fun edge results =>
          g.visit ro fuel edge results (some (V.add key).1.copy) stable)
          (g.edgeList ro stable (V.items ++ [key]) key) R with _ | ⟨R', _ | err⟩ <;>
        rcases hy : forEdgesL (fun edge results =>
          g.visitL ro stable fuel edge results (V.items ++ [key]))
          (g.edgeList ro stable (V.items ++ [key]) key) R.items with _ | ⟨r', _ | c⟩ <;>
        rw [hx, hy] at hloop <;> simp only [Refines, Option.map] at hloop ⊢
      · obtain ⟨h1, h2, -⟩ := hloop
        subst h2
        exact ⟨(add_items h1 key).2, (add_items h1 key).1, trivial⟩
      · exact absurd hloop.2.2 (by simp)
      · exact absurd hloop.2.2 (by simp)
      · exact hloop

/-! ## Successful traversals -/

theorem forEdgesL_ok_cons {fL : Key → List Key → Option (ListResult Key)} {e : Key}
    {es r r' : List Key} (h : forEdgesL fL (e :: es) r = some (r', none)) :
    ∃ r1, fL e r = some (r1, none) ∧ forEdgesL fL es r1 = some (r', none) := by
  simp only [forEdgesL] at h
  rcases hx : fL e r with _ | ⟨r1, _ | c⟩ <;> rw [hx] at h <;> simp at h
  · exact ⟨r1, rfl, h⟩

theorem forEdgesL_good (g : Graph Key) {fL : Key → List Key → Option (ListResult Key)} :
    ∀ (es r r' : List Key),
      (∀ e ∈ es, ∀ r r', fL e r = some (r', none) → Good g e r r') →
      forEdgesL fL es r = some (r', none) → LoopGood g es r r' := by
  intro es
  induction es with
  | nil =>
    intro r r' _ h
    simp only [forEdgesL, Option.some.injEq, Prod.mk.injEq, and_true] at h
    subst h
    exact ⟨List.prefix_refl _, by simp, fun x hx => Or.inl hx, id, id⟩
  | cons e es ih =>
    intro r r' hf h
    obtain ⟨r1, h1, h2⟩ := forEdgesL_ok_cons h
    obtain ⟨g1, g2, g3, g4, g5⟩ := hf e (List.mem_cons_self _ _) r r1 h1
    obtain ⟨l1, l2, l3, l4, l5⟩ :=
      ih r1 r' (fun e' he' => hf e' (List.mem_cons_of_mem _ he')) h2
    refine ⟨g1.trans l1, ?_, ?_, fun hn => l4 (g4 hn), fun hc => l5 (g5 hc)⟩
    · intro e' he'
      rcases List.mem_cons.1 he' with rfl | he'
      · exact l1.subset g2
      · exact l2 e' he'
    · intro x hx
      rcases l3 x hx with hx1 | ⟨e', he', hr⟩
      · rcases g3 x hx1 with hx0 | hr
        · exact Or.inl hx0
        · exact Or.inr ⟨e, List.mem_cons_self _ _, hr⟩
      · exact Or.inr ⟨e', List.mem_cons_of_mem _ he', hr⟩

theorem mem_edgeList (g : Graph Key) (ro : RangeOrder Key) (stable : Bool) (path : List Key)
    (key v : Key) : v ∈ g.edgeList ro stable path key ↔ g.HasEdge key v := by
  unfold Graph.edgeList Graph.HasEdge nodeimpl.edges
  split
  · rw [List.mem_insertionSort, (ro.perm _ _).mem_iff]
  · rw [(ro.perm _ _).mem_iff]

theorem closed_addItem (g : Graph Key) {r : List Key} {key : Key} (hc : Closed g r)
    (hk : ∀ v, g.HasEdge key v → v ∈ r) : Closed g (addItem r key) := by
  unfold addItem
  split
  · exact hc
  · rename_i hnot
    intro u hu v huv
    rcases List.mem_append.1 hu with hu | hu
    · obtain ⟨hv, hlt⟩ := hc u hu v huv
      refine ⟨List.mem_append_left _ hv, ?_⟩
      rw [List.indexOf_append_of_mem hv, List.indexOf_append_of_mem hu]
      exact hlt
    · have hu' : u = key := by simpa using hu
      subst hu'
      have hv := hk v huv
      refine ⟨List.mem_append_left _ hv, ?_⟩
      rw [List.indexOf_append_of_mem hv, List.indexOf_append_of_not_mem hnot]
      have := List.indexOf_lt_length.2 hv
      omega

theorem nodup_addItem {r : List Key} (key : Key) (h : r.Nodup) : (addItem r key).Nodup := by
  unfold addItem
  split
  · exact h
  · rename_i hnot
    exact List.Nodup.append h (List.nodup_singleton key) (by simpa using hnot)

theorem visitL_good (g : Graph Key) (ro : RangeOrder Key) (stable : Bool) :
    ∀ (fuel : Nat) (key : Key) (r path r' : List Key),
      g.visitL ro stable fuel key r path = some (r', none) → key ∉ path ∧ Good g key r r' := by
  intro fuel
  induction fuel with
  | zero => intro key r path r' h; simp [Graph.visitL] at h
  | succ fuel ih =>
    intro key r path r' h
    rw [Graph.visitL] at h
    by_cases hk : key ∈ path
    · simp [hk] at h
    · simp only [hk, if_false] at h
      rcases hx : forEdgesL (fun edge results =>
          g.visitL ro stable fuel edge results (path ++ [key]))
          (g.edgeList ro stable (path ++ [key]) key) r with _ | ⟨r1, _ | c⟩ <;>
        rw [hx] at h <;> simp at h
      subst h
      obtain ⟨l1, l2, l3, l4, l5⟩ := forEdgesL_good g _ r r1
        (fun e _ r0 r0' h0 => (ih e r0 (path ++ [key]) r0' h0).2) hx
      refine ⟨hk, ?_, ?_, ?_, fun hn => nodup_addItem key (l4 hn), fun hc => ?_⟩
      · unfold addItem
        split
        · exact l1
        · exact l1.trans (List.prefix_append _ _)
      · unfold addItem
        split
        · assumption
        · simp
      · intro x hx'
        have hx1 : x ∈ r1 ∨ x = key := by
          unfold addItem at hx'
          split at hx'
          · exact Or.inl hx'
          · simpa using hx'
        rcases hx1 with hx1 | rfl
        · rcases l3 x hx1 with h0 | ⟨e, he, hr⟩
          · exact Or.inl h0
          · exact Or.inr (Relation.ReflTransGen.head ((mem_edgeList g ro stable _ _ _).1 he) hr)
        · exact Or.inr Relation.ReflTransGen.refl
      · exact closed_addItem g (l5 hc)
          (fun v hv => l2 v ((mem_edgeList g ro stable _ _ _).2 hv))

/-! ## Failing traversals -/

theorem forEdgesL_err {fL : Key → List Key → Option (ListResult Key)} (Q : List Key → Prop) :
    ∀ (es r r' : List Key) (c : List Key),
      (∀ e ∈ es, ∀ r r' c, fL e r = some (r', some c) → Q c) →
      forEdgesL fL es r = some (r', some c) → Q c := by
  intro es
  induction es with
  | nil => intro r r' c _ h; simp [forEdgesL] at h
  | cons e es ih =>
    intro r r' c hf h
    simp only [forEdgesL] at h
    rcases hx : fL e r with _ | ⟨r1, _ | c1⟩ <;> rw [hx] at h <;> simp at h
    · exact ih r1 r' c (fun e' he' => hf e' (List.mem_cons_of_mem _ he')) h
    · obtain ⟨-, rfl⟩ := h
      exact hf e (List.mem_cons_self _ _) r r1 c1 hx

theorem cycleOK_of_mem (g : Graph Key) {start key : Key} {path : List Key}
    (hp : PathOK g start path key) (hk : key ∈ path) :
    CycleOK g start (path.drop (path.indexOf key) ++ [key]) := by
  obtain ⟨hchain, hnd, hreach⟩ := hp
  have hlt : path.indexOf key < path.length := List.indexOf_lt_length.2 hk
  have hhead : (path.drop (path.indexOf key) ++ [key]).head? = some key := by
    have hne : path.drop (path.indexOf key) ≠ [] := by
      intro h0
      have := congrArg List.length h0
      simp at this
      omega
    rw [List.head?_append_of_ne_nil _ hne, List.head?_drop, List.getElem?_indexOf hk]
  refine ⟨?_, ?_, ?_, ?_, key, hhead, hreach key (by simp)⟩
  · simp only [List.length_append, List.length_drop, List.length_singleton]
    omega
  · rw [hhead, List.getLast?_concat]
  · rw [List.dropLast_concat]
    exact List.Nodup.sublist (List.drop_sublist _ _) hnd
  · rw [← List.drop_append_of_le_length (Nat.le_of_lt hlt)]
    exact hchain.drop _

theorem pathOK_child (g : Graph Key) {start key e : Key} {path : List Key}
    (hp : PathOK g start path key) (hk : key ∉ path) (he : g.HasEdge key e) :
    PathOK g start (path ++ [key]) e := by
  obtain ⟨hchain, hnd, hreach⟩ := hp
  refine ⟨?_, List.Nodup.append hnd (List.nodup_singleton key) (by simpa using hk), ?_⟩
  · rw [List.chain'_append]
    refine ⟨hchain, List.chain'_singleton e, ?_⟩
    intro x hx y hy
    rw [List.getLast?_concat] at hx
    simp only [List.head?_cons, Option.mem_def, Option.some.injEq] at hx hy
    subst hx hy
    exact he
  · intro x hx
    rcases List.mem_append.1 hx with hx | hx
    · exact hreach x hx
    · have hxe : x = e := by simpa using hx
      subst hxe
      exact (hreach key (by simp)).tail he

theorem visitL_err (g : Graph Key) (ro : RangeOrder Key) (stable : Bool) (start : Key) :
    ∀ (fuel : Nat) (key : Key) (r path r' c : List Key),
      g.visitL ro stable fuel key r path = some (r', some c) → PathOK g start path key →
      CycleOK g start c := by
  intro fuel
  induction fuel with
  | zero => intro key r path r' c h; simp [Graph.visitL] at h
  | succ fuel ih =>
    intro key r path r' c h hp
    rw [Graph.visitL] at h
    by_cases hk : key ∈ path
    · simp only [hk, if_true, Option.some.injEq, Prod.mk.injEq] at h
      obtain ⟨-, rfl⟩ := h
      exact cycleOK_of_mem g hp hk
    · simp only [hk, if_false] at h
      rcases hx : forEdgesL (fun edge results =>
          g.visitL ro stable fuel edge results (path ++ [key]))
          (g.edgeList ro stable (path ++ [key]) key) r with _ | ⟨r1, _ | c1⟩ <;>
        rw [hx] at h <;> simp at h
      obtain ⟨-, rfl⟩ := h
      exact forEdgesL_err (CycleOK g start) _ r r1 c1
        (fun e he r0 r0' c0 h0 => ih e r0 (path ++ [key]) r0' c0 h0
          (pathOK_child g hp hk ((mem_edgeList g ro stable _ _ _).1 he))) hx

/-! ## Termination -/

theorem forEdges_mono (f f' : Key → orderedset Key → Option (VisitResult Key))
    (hf : ∀ e R x, f e R = some x → f' e R = some x) :
    ∀ (es : List Key) (R : orderedset Key) (x : VisitResult Key),
      forEdges f es R = some x → forEdges f' es R = some x := by
  intro es
  induction es with
  | nil => intro R x h; simpa [forEdges] using h
  | cons e es ih =>
    intro R x h
    simp only [forEdges] at h ⊢
    rcases hx : f e R with _ | ⟨R1, _ | err⟩ <;> rw [hx] at h
    · simp at h
    · rw [hf e R _ hx]
      exact ih R1 x h
    · rw [hf e R _ hx]
      exact h

theorem visit_mono_succ (g : Graph Key) (ro : RangeOrder Key) (stable : Bool) :
    ∀ (fuel : Nat) (key : Key) (R : orderedset Key) (V : Option (orderedset Key))
      (x : VisitResult Key),
      g.visit ro fuel key R V stable = some x → g.visit ro (fuel + 1) key R V stable = some x := by
  intro fuel
  induction fuel with
  | zero => intro key R V x h; simp [Graph.visit] at h
  | succ fuel ih =>
    intro key R V x h
    rw [Graph.visit] at h
    rw [Graph.visit]
    by_cases hb : (!((V.getD newOrderedSet).add key).2) = true
    · simp only [hb, if_true] at h ⊢
      exact h
    · simp only [hb, if_false] at h ⊢
      rcases hx : forEdges (fun edge results => g.visit ro fuel edge results
          (some ((V.getD newOrderedSet).add key).1.copy) stable)
          (if stable = true then List.insertionSort (fun x1 x2 => x1 ≤ x2)
            ((g.node key).edges ro ((V.getD newOrderedSet).add key).1.items)
          else (g.node key).edges ro ((V.getD newOrderedSet).add key).1.items) R with _ | y
      · rw [hx] at h; simp at h
      · rw [hx] at h
        rw [forEdges_mono _ (fun edge results => g.visit ro (fuel + 1) edge results
          (some ((V.getD newOrderedSet).add key).1.copy) stable)
          (fun e R0 x0 h0 => ih e R0 _ x0 h0) _ R y hx]
        exact h

theorem visit_mono (g : Graph Key) (ro : RangeOrder Key) (stable : Bool) {fuel fuel' : Nat}
    (hle : fuel ≤ fuel') {key : Key} {R : orderedset Key} {V : Option (orderedset Key)}
    {x : VisitResult Key} (h : g.visit ro fuel key R V stable = some x) :
    g.visit ro fuel' key R V stable = some x := by
  induction hle with
  | refl => exact h
  | step _ ih => exact visit_mono_succ g ro stable _ key R V x ih

theorem forEdgesL_ne_none (fL : Key → List Key → Option (ListResult Key)) :
    ∀ (es r : List Key), (∀ e ∈ es, ∀ r, fL e r ≠ none) → forEdgesL fL es r ≠ none := by
  intro es
  induction es with
  | nil => intro r _; simp [forEdgesL]
  | cons e es ih =>
    intro r hf
    simp only [forEdgesL]
    rcases hx : fL e r with _ | ⟨r1, _ | c⟩
    · exact absurd hx (hf e (List.mem_cons_self _ _) r)
    · exact ih r1 (fun e' he' => hf e' (List.mem_cons_of_mem _ he'))
    · simp

theorem visitL_ne_none (g : Graph Key) (ro : RangeOrder Key) (stable : Bool) (U : List Key)
    (hU : ∀ u v, g.HasEdge u v → v ∈ U) :
    ∀ (fuel : Nat) (key : Key) (r path : List Key),
      path.Nodup → path ⊆ U → key ∈ U → U.length < fuel + path.length →
      g.visitL ro stable fuel key r path ≠ none := by
  intro fuel
  induction fuel with
  | zero =>
    intro key r path hnd hsub _ hlt
    have := (List.Nodup.subperm hnd hsub).length_le
    omega
  | succ fuel ih =>
    intro key r path hnd hsub hkey hlt
    rw [Graph.visitL]
    by_cases hk : key ∈ path
    · simp [hk]
    · simp only [hk, if_false]
      have hloop := forEdgesL_ne_none (fun edge results =>
          g.visitL ro stable fuel edge results (path ++ [key]))
          (g.edgeList ro stable (path ++ [key]) key) r
          (fun e he r0 => ih e r0 (path ++ [key])
            (List.Nodup.append hnd (List.nodup_singleton key) (by simpa using hk))
            (by
              intro x hx
              rcases List.mem_append.1 hx with hx | hx
              · exact hsub hx
              · have hxk : x = key := by simpa using hx
                exact hxk ▸ hkey)
            (hU key e ((mem_edgeList g ro stable _ _ _).1 he))
            (by simp only [List.length_append, List.length_singleton]; omega))
      rcases hx : forEdgesL (fun edge results =>
          g.visitL ro stable fuel edge results (path ++ [key]))
          (g.edgeList ro stable (path ++ [key]) key) r with _ | ⟨r1, _ | c⟩
      · exact absurd hx hloop
      · simp
      · simp

theorem mem_universe (g : Graph Key) (start : Key) (u v : Key) (h : g.HasEdge u v) :
    v ∈ g.universe start := by
  unfold Graph.universe
  refine List.mem_cons_of_mem _ (List.mem_flatMap.2 ⟨u, ?_, h⟩)
  unfold Graph.HasEdge Graph.node at h
  rcases hl : g.nodes.lookup u with _ | n
  · rw [hl] at h; simp at h
  · exact AList.mem_keys.1 (AList.lookup_isSome.1 (by rw [hl]; rfl))

theorem universe_length (g : Graph Key) (start : Key) :
    (g.universe start).length < g.fuel := by
  unfold Graph.universe Graph.fuel
  rw [List.length_cons, List.length_flatMap]
  have : (List.map (List.length ∘ fun k => (g.node k).keys) g.nodes.keys)
      = (List.map (fun k => (g.node k).keys.length) g.nodes.keys) := rfl
  rw [this]
  omega

theorem visit_ne_none_of (g : Graph Key) (ro : RangeOrder Key) (key : Key) (stable : Bool)
    (U : List Key) (hU : ∀ u v, g.HasEdge u v → v ∈ U) (hkey : key ∈ U) (fuel : Nat)
    (hlen : U.length < fuel) : g.visit ro fuel key newOrderedSet none stable ≠ none := by
  have href := visit_refines g ro stable fuel key newOrderedSet none newOrderedSet_wf
    (fun P hP => by cases hP)
  have hL := visitL_ne_none g ro stable U hU fuel key
    (newOrderedSet : orderedset Key).items [] List.nodup_nil (by simp) hkey (by simpa using hlen)
  intro hnone
  rw [hnone] at href
  simp only [Option.getD_none] at href
  rcases hx : g.visitL ro stable fuel key (newOrderedSet : orderedset Key).items
      (newOrderedSet : orderedset Key).items with _ | y
  · exact hL hx
  · rw [hx] at href
    exact href

theorem visit_ne_none (g : Graph Key) (ro : RangeOrder Key) (key : Key) (stable : Bool) :
    g.visit ro g.fuel key newOrderedSet none stable ≠ none :=
  visit_ne_none_of g ro key stable (g.universe key) (mem_universe g key)
    (by simp [Graph.universe]) g.fuel (universe_length g key)

theorem visit_ne_none_wellFormed (g : Graph Key) (hg : g.WellFormed) (ro : RangeOrder Key)
    (key : Key) (stable : Bool) :
    g.visit ro (g.nodes.keys.length + 2) key newOrderedSet none stable ≠ none :=
  visit_ne_none_of g ro key stable (key :: g.nodes.keys)
    (fun u v huv => List.mem_cons_of_mem _
      (AList.mem_keys.1 ((containsNode_iff g v).1 (hg u v huv).2)))
    (List.mem_cons_self _ _) _ (by simp)

/-! ## From the entry points to the traversal on lists -/

theorem doTopSort_ok {g : Graph Key} {ro : RangeOrder Key} {key : Key} {stable : Bool}
    {seq : List Key} (h : g.doTopSort ro key stable = some (seq, none)) :
    g.visitL ro stable g.fuel key [] [] = some (seq, none) := by
  have href := visit_refines g ro stable g.fuel key newOrderedSet none newOrderedSet_wf
    (fun P hP => by cases hP)
  unfold Graph.doTopSort at h
  rcases hx : g.visit ro g.fuel key newOrderedSet none stable with _ | ⟨R, _ | err⟩ <;>
    rw [hx] at h href <;> simp at h
  simp only [Option.getD_none] at href
  rcases hy : g.visitL ro stable g.fuel key (newOrderedSet : orderedset Key).items
      (newOrderedSet : orderedset Key).items with _ | ⟨r, c⟩ <;> rw [hy] at href
  · exact href.elim
  · obtain ⟨-, h2, h3⟩ := href
    have hy' : g.visitL ro stable g.fuel key [] [] = some (r, c) := hy
    rw [hy', ← h, h2, ← h3]
    rfl

theorem doTopSort_err {g : Graph Key} {ro : RangeOrder Key} {key : Key} {stable : Bool}
    {seq : List Key} {e : CycleError Key} (h : g.doTopSort ro key stable = some (seq, some e)) :
    seq = [] ∧ ∃ r, g.visitL ro stable g.fuel key [] [] = some (r, some e.cycle) := by
  have href := visit_refines g ro stable g.fuel key newOrderedSet none newOrderedSet_wf
    (fun P hP => by cases hP)
  unfold Graph.doTopSort at h
  rcases hx : g.visit ro g.fuel key newOrderedSet none stable with _ | ⟨R, _ | err⟩ <;>
    rw [hx] at h href <;> simp at h
  simp only [Option.getD_none] at href
  rcases hy : g.visitL ro stable g.fuel key (newOrderedSet : orderedset Key).items
      (newOrderedSet : orderedset Key).items with _ | ⟨r, c⟩ <;> rw [hy] at href
  · exact href.elim
  · obtain ⟨-, h2, h3⟩ := href
    have hy' : g.visitL ro stable g.fuel key [] [] = some (r, c) := hy
    refine ⟨h.1, r, ?_⟩
    rw [hy', ← h.2, ← h3]
    rfl

theorem doTopSort_total (g : Graph Key) (ro : RangeOrder Key) (key : Key) (stable : Bool) :
    (∃ seq, g.doTopSort ro key stable = some (seq, none)) ∨
      ∃ e, g.doTopSort ro key stable = some ([], some e) := by
  have hne := visit_ne_none g ro key stable
  unfold Graph.doTopSort
  rcases hx : g.visit ro g.fuel key newOrderedSet none stable with _ | ⟨R, _ | err⟩
  · exact absurd hx hne
  · exact Or.inl ⟨R.items, rfl⟩
  · exact Or.inr ⟨err, rfl⟩

theorem sort_cases {g : Graph Key} {ro : RangeOrder Key} {key : Key}
    {x : List Key × Option (CycleError Key)}
    (h : g.TopSort ro key = some x ∨ g.StableTopSort ro key = some x) :
    ∃ stable, g.doTopSort ro key stable = some x := by
  rcases h with h | h
  · exact ⟨false, h⟩
  · exact ⟨true, h⟩

theorem doTopSort_good {g : Graph Key} {ro : RangeOrder Key} {key : Key} {stable : Bool}
    {seq : List Key} (h : g.doTopSort ro key stable = some (seq, none)) :
    key ∈ seq ∧ seq.Nodup ∧ Closed g seq ∧
      ∀ x ∈ seq, Relation.ReflTransGen g.HasEdge key x := by
  obtain ⟨-, -, g2, g3, g4, g5⟩ := visitL_good g ro stable g.fuel key [] [] seq (doTopSort_ok h)
  refine ⟨g2, g4 List.nodup_nil, g5 (fun u hu => by simp at hu), fun x hx => ?_⟩
  rcases g3 x hx with h0 | h0
  · simp at h0
  · exact h0

theorem closed_reach {g : Graph Key} {l : List Key} (hc : Closed g l) {u v : Key} (hu : u ∈ l)
    (h : Relation.ReflTransGen g.HasEdge u v) : v ∈ l := by
  induction h with
  | refl => exact hu
  | tail _ hbc ih => exact (hc _ ih _ hbc).1

theorem closed_transGen {g : Graph Key} {l : List Key} (hc : Closed g l) {u v : Key}
    (hu : u ∈ l) (h : Relation.TransGen g.HasEdge u v) : v ∈ l ∧ l.indexOf v < l.indexOf u := by
  induction h with
  | single huv => exact hc _ hu _ huv
  | tail _ hbc ih =>
    obtain ⟨h1, h2⟩ := hc _ ih.1 _ hbc
    exact ⟨h1, lt_trans h2 ih.2⟩

theorem chain_transGen {E : Key → Key → Prop} :
    ∀ (l : List Key) (a b : Key), List.Chain E a l → l ≠ [] → (a :: l).getLast? = some b →
      Relation.TransGen E a b := by
  intro l
  induction l with
  | nil => intro a b _ hne; exact absurd rfl hne
  | cons x l ih =>
    intro a b hch _ hlast
    rw [List.chain_cons] at hch
    by_cases hl : l = []
    · subst hl
      simp only [List.getLast?_cons_cons, List.getLast?_singleton, Option.some.injEq] at hlast
      subst hlast
      exact Relation.TransGen.single hch.1
    · rw [List.getLast?_cons_cons] at hlast
      exact Relation.TransGen.head hch.1 (ih x b hch.2 hl hlast)

theorem cycleOK_cycleFrom {g : Graph Key} {start : Key} {c : List Key}
    (h : CycleOK g start c) : g.CycleFrom start := by
  obtain ⟨hlen, hends, -, hchain, a, ha, hreach⟩ := h
  match c, hlen, hends, hchain, ha with
  | x :: y :: l, _, hends, hchain, ha =>
    simp only [List.head?_cons, Option.some.injEq] at ha
    subst ha
    refine ⟨x, hreach, chain_transGen (y :: l) x x hchain (by simp) ?_⟩
    rw [← hends]
    rfl

theorem chain_getElem_succ {E : Key → Key → Prop} {l : List Key} (h : List.Chain' E l) {i : Nat}
    {a b : Key} (ha : l[i]? = some a) (hb : l[i + 1]? = some b) : E a b := by
  obtain ⟨hi, rfl⟩ := List.getElem?_eq_some.1 ha
  obtain ⟨hj, rfl⟩ := List.getElem?_eq_some.1 hb
  exact List.chain'_iff_get.1 h i (by omega)

/-! ## The contract of the two sorts -/

theorem error_iff_cycleFrom (g : Graph Key) (ro : RangeOrder Key) (key : Key) (stable : Bool) :
    (∃ seq e, g.doTopSort ro key stable = some (seq, some e)) ↔ g.CycleFrom key := by
  constructor
  · rintro ⟨seq, e, he⟩
    obtain ⟨-, r, hr⟩ := doTopSort_err he
    exact cycleOK_cycleFrom (visitL_err g ro stable key g.fuel key [] [] r e.cycle hr
      ⟨List.chain'_singleton key, List.nodup_nil, fun x hx => by
        have hx' : x = key := by simpa using hx
        subst hx'
        exact Relation.ReflTransGen.refl⟩)
  · rintro ⟨c, hc, hcc⟩
    rcases doTopSort_total g ro key stable with ⟨seq, hs⟩ | ⟨e, he⟩
    · obtain ⟨hkey, -, hclosed, -⟩ := doTopSort_good hs
      have hmem := closed_reach hclosed hkey hc
      exact absurd (closed_transGen hclosed hmem hcc).2 (lt_irrefl _)
    · exact ⟨[], e, he⟩

/-- C1. Dependency before dependent: when `TopSort` or `StableTopSort` returns the sequence
`seq` without error, under any range order of the edge maps, then for every edge `u -> v` of
the graph and every position `j` at which `u` occurs in `seq`, the key `v` occurs in `seq` at
a strictly smaller position. -/
theorem dependency_before_dependent (g : Graph Key) (ro : RangeOrder Key) (key : Key)
    (seq : List Key)
    (h : g.TopSort ro key = some (seq, none) ∨ g.StableTopSort ro key = some (seq, none))
    (u v : Key) (huv : g.HasEdge u v) (j : Nat) (hj : seq[j]? = some u) :
    ∃ i, i < j ∧ seq[i]? = some v := by
  obtain ⟨stable, hs⟩ := sort_cases h
  obtain ⟨-, hnd, hclosed, -⟩ := doTopSort_good hs
  obtain ⟨hlt, rfl⟩ := List.getElem?_eq_some.1 hj
  obtain ⟨hv, hidx⟩ := hclosed _ (List.getElem_mem hlt) v huv
  rw [List.indexOf_getElem hnd j hlt] at hidx
  exact ⟨seq.indexOf v, hidx, List.getElem?_indexOf hv⟩

/-- Instance of C1 on the graph of `TestTopSort3`: in `[b, c, d, a]` the target `c` of the
edge `d -> c` stands before `d`. -/
theorem dependency_before_dependent_witness :
    (ofEdges [("a", "b"), ("a", "d"), ("d", "c"), ("c", "b")]).TopSort RangeOrder.stored "a"
        = some (["b", "c", "d", "a"], none) ∧
      (ofEdges [("a", "b"), ("a", "d"), ("d", "c"), ("c", "b")]).HasEdge "d" "c" ∧
      ∃ i, i < 2 ∧ ["b", "c", "d", "a"][i]? = some "c" :=
  ⟨by decide, by decide,
    dependency_before_dependent (ofEdges [("a", "b"), ("a", "d"), ("d", "c"), ("c", "b")])
      RangeOrder.stored "a" ["b", "c", "d", "a"] (Or.inl (by decide)) "d" "c" (by decide) 2
      (by decide)⟩

/-- C2. Exactly the reachable set, once each: when `TopSort` or `StableTopSort` returns the
sequence `seq` without error, `seq` has no duplicate keys, and a key occurs in `seq` if and
only if it is the start key or can be reached from the start key along one or more edges. -/
theorem result_is_reachable_set (g : Graph Key) (ro : RangeOrder Key) (key : Key)
    (seq : List Key)
    (h : g.TopSort ro key = some (seq, none) ∨ g.StableTopSort ro key = some (seq, none)) :
    seq.Nodup ∧ ∀ k, k ∈ seq ↔ (k = key ∨ g.Reach key k) := by
  obtain ⟨stable, hs⟩ := sort_cases h
  obtain ⟨hkey, hnd, hclosed, hreach⟩ := doTopSort_good hs
  refine ⟨hnd, fun k => ⟨fun hk => ?_, fun hk => ?_⟩⟩
  · exact Relation.reflTransGen_iff_eq_or_transGen.1 (hreach k hk)
  · exact closed_reach hclosed hkey (Relation.reflTransGen_iff_eq_or_transGen.2 hk)

/-- Instance of C2 on the graph of `TestTopSort`. -/
theorem result_is_reachable_set_witness :
    (ofEdges [("a", "b"), ("b", "c")]).TopSort RangeOrder.stored "a"
        = some (["c", "b", "a"], none) ∧
      ["c", "b", "a"].Nodup ∧
      ∀ k, k ∈ ["c", "b", "a"] ↔
        (k = "a" ∨ (ofEdges [("a", "b"), ("b", "c")]).Reach "a" k) :=
  ⟨by decide,
    result_is_reachable_set (ofEdges [("a", "b"), ("b", "c")]) RangeOrder.stored "a"
      ["c", "b", "a"] (Or.inl (by decide))⟩

/-- C3. Cycle error if and only if a cycle can be reached: under any range order, `TopSort`
returns an error exactly when some cycle of the graph (a key that reaches itself along one
or more edges, a self edge included) can be reached from the start key, and so does
`StableTopSort`. -/
theorem cycle_error_iff (g : Graph Key) (ro : RangeOrder Key) (key : Key) :
    ((∃ seq e, g.TopSort ro key = some (seq, some e)) ↔ g.CycleFrom key) ∧
      ((∃ seq e, g.StableTopSort ro key = some (seq, some e)) ↔ g.CycleFrom key) :=
  ⟨error_iff_cycleFrom g ro key false, error_iff_cycleFrom g ro key true⟩

/-- The diamond `a -> b`, `a -> c`, `c -> b` sorts from `a` without error, in both range
orders of the edges of `a`. -/
theorem diamond_no_error :
    (ofEdges [("a", "b"), ("a", "c"), ("c", "b")]).TopSort RangeOrder.stored "a"
        = some (["b", "c", "a"], none) ∧
      (ofEdges [("a", "b"), ("a", "c"), ("c", "b")]).TopSort RangeOrder.reversed "a"
        = some (["b", "c", "a"], none) := by
  decide

/-- A cycle that the start key does not reach causes no error: with the edges `a -> b`,
`c -> d`, `d -> c` the sort from `a` succeeds and the sort from `c` fails. -/
theorem unreachable_cycle_no_error :
    (ofEdges [("a", "b"), ("c", "d"), ("d", "c")]).TopSort RangeOrder.stored "a"
        = some (["b", "a"], none) ∧
      (ofEdges [("a", "b"), ("c", "d"), ("d", "c")]).TopSort RangeOrder.stored "c"
        = some ([], some { cycle := ["c", "d", "c"], msg := "cycle error: c -> d -> c" }) := by
  decide

/-- C4. The reported cycle is a cycle of the graph: when `TopSort` or `StableTopSort` returns
an error, the key list `e.cycle` carried by the error has at least two entries, has the
same key as first and as last entry, repeats no key among its entries other than the last,
has an edge of the graph between every two consecutive entries, and its first key is the
start key or can be reached from it. -/
theorem reported_cycle_is_real (g : Graph Key) (ro : RangeOrder Key) (key : Key)
    (seq : List Key) (e : CycleError Key)
    (h : g.TopSort ro key = some (seq, some e) ∨ g.StableTopSort ro key = some (seq, some e)) :
    2 ≤ e.cycle.length ∧ e.cycle.head? = e.cycle.getLast? ∧ e.cycle.dropLast.Nodup ∧
      (∀ i a b, e.cycle[i]? = some a → e.cycle[i + 1]? = some b → g.HasEdge a b) ∧
      ∃ k, e.cycle.head? = some k ∧ (k = key ∨ g.Reach key k) := by
  obtain ⟨stable, hs⟩ := sort_cases h
  obtain ⟨-, r, hr⟩ := doTopSort_err hs
  obtain ⟨h1, h2, h3, h4, k, h5, h6⟩ := visitL_err g ro stable key g.fuel key [] [] r e.cycle hr
    ⟨List.chain'_singleton key, List.nodup_nil, fun x hx => by
      have hx' : x = key := by simpa using hx
      subst hx'
      exact Relation.ReflTransGen.refl⟩
  exact ⟨h1, h2, h3, fun i a b ha hb => chain_getElem_succ h4 ha hb, k, h5,
    Relation.reflTransGen_iff_eq_or_transGen.1 h6⟩

/-- Instance of C4 on the graph of `TestTopSortCycleError3`: the sort from `a` reports
`b -> c -> b`. -/
theorem reported_cycle_is_real_witness :
    (ofEdges [("a", "b"), ("b", "c"), ("c", "b")]).TopSort RangeOrder.stored "a"
        = some ([], some { cycle := ["b", "c", "b"], msg := "cycle error: b -> c -> b" }) ∧
      (2 ≤ ["b", "c", "b"].length ∧ ["b", "c", "b"].head? = ["b", "c", "b"].getLast? ∧
        ["b", "c", "b"].dropLast.Nodup ∧
        (∀ i a b, ["b", "c", "b"][i]? = some a → ["b", "c", "b"][i + 1]? = some b →
          (ofEdges [("a", "b"), ("b", "c"), ("c", "b")]).HasEdge a b) ∧
        ∃ k, ["b", "c", "b"].head? = some k ∧
          (k = "a" ∨ (ofEdges [("a", "b"), ("b", "c"), ("c", "b")]).Reach "a" k)) :=
  ⟨by decide,
    reported_cycle_is_real (ofEdges [("a", "b"), ("b", "c"), ("c", "b")]) RangeOrder.stored "a"
      [] { cycle := ["b", "c", "b"], msg := "cycle error: b -> c -> b" } (Or.inl (by decide))⟩

/-! ## The text of the error -/

theorem intercalate_go_eq_foldl (sep : String) :
    ∀ (l : List String) (acc : String),
      String.intercalate.go acc sep l = l.foldl (fun b x => b ++ sep ++ x) acc := by
  intro l
  induction l with
  | nil => intro acc; rfl
  | cons x l ih => intro acc; simp [String.intercalate.go, ih]

theorem stringsJoin_eq_intercalate (elems : List String) (sep : String) :
    stringsJoin elems sep = sep.intercalate elems := by
  cases elems with
  | nil => rfl
  | cons x l => simp [stringsJoin, String.intercalate, intercalate_go_eq_foldl]

theorem forEdges_err {f : Key → orderedset Key → Option (VisitResult Key)}
    (Q : CycleError Key → Prop) :
    ∀ (es : List Key) (R R' : orderedset Key) (err : CycleError Key),
      (∀ e ∈ es, ∀ R R' err, f e R = some (R', some err) → Q err) →
      forEdges f es R = some (R', some err) → Q err := by
  intro es
  induction es with
  | nil => intro R R' err _ h; simp [forEdges] at h
  | cons e es ih =>
    intro R R' err hf h
    simp only [forEdges] at h
    rcases hx : f e R with _ | ⟨R1, _ | err1⟩ <;> rw [hx] at h <;> simp at h
    · exact ih R1 R' err (fun e' he' => hf e' (List.mem_cons_of_mem _ he')) h
    · obtain ⟨-, rfl⟩ := h
      exact hf e (List.mem_cons_self _ _) R R1 err1 hx

theorem visit_err_msg (g : Graph Key) (ro : RangeOrder Key) (stable : Bool) :
    ∀ (fuel : Nat) (key : Key) (R : orderedset Key) (V : Option (orderedset Key))
      (R' : orderedset Key) (err : CycleError Key),
      g.visit ro fuel key R V stable = some (R', some err) →
      err.msg = "cycle error: " ++ stringsJoin (err.cycle.map Sprintf.sprint) " -> " := by
  intro fuel
  induction fuel with
  | zero => intro key R V R' err h; simp [Graph.visit] at h
  | succ fuel ih =>
    intro key R V R' err h
    rw [Graph.visit] at h
    by_cases hb : (!((V.getD newOrderedSet).add key).2) = true
    · simp only [hb, if_true, Option.some.injEq, Prod.mk.injEq] at h
      obtain ⟨-, rfl⟩ := h
      rfl
    · simp only [hb, if_false] at h
      rcases hx : forEdges (fun edge results => g.visit ro fuel edge results
          (some ((V.getD newOrderedSet).add key).1.copy) stable)
          (if stable = true then List.insertionSort (fun x1 x2 => x1 ≤ x2)
            ((g.node key).edges ro ((V.getD newOrderedSet).add key).1.items)
          else (g.node key).edges ro ((V.getD newOrderedSet).add key).1.items) R
        with _ | ⟨R1, _ | err1⟩ <;> rw [hx] at h <;> simp at h
      obtain ⟨-, rfl⟩ := h
      exact forEdges_err
        (fun err => err.msg = "cycle error: " ++ stringsJoin (err.cycle.map Sprintf.sprint) " -> ")
        _ R R1 err1 (fun e _ R0 R0' err0 h0 => ih e R0 _ R0' err0 h0) hx

/-- C5. Text of the cycle error: when a sort of a graph over string keys fails, the message
of the error is exactly `cycle error: ` followed by the keys of the detected cycle joined
with ` -> `. -/
theorem cycle_error_text (g : Graph String) (ro : RangeOrder String) (key : String)
    (seq : List String) (e : CycleError String)
    (h : g.TopSort ro key = some (seq, some e) ∨ g.StableTopSort ro key = some (seq, some e)) :
    e.msg = "cycle error: " ++ " -> ".intercalate e.cycle := by
  obtain ⟨stable, hs⟩ := sort_cases h
  unfold Graph.doTopSort at hs
  rcases hx : g.visit ro g.fuel key newOrderedSet none stable with _ | ⟨R, _ | err⟩ <;>
    rw [hx] at hs <;> simp at hs
  obtain ⟨-, rfl⟩ := hs
  have hmsg := visit_err_msg g ro stable g.fuel key newOrderedSet none R err hx
  rw [hmsg, stringsJoin_eq_intercalate]
  have hid : err.cycle.map Sprintf.sprint = err.cycle := by
    simp [Sprintf.sprint]
  rw [hid]

/-- Instance of C5 on the graph of `TestTopSortCycleError`: the edges `a -> b`, `b -> a`
sorted from `a` give the text `cycle error: a -> b -> a`. -/
theorem cycle_error_text_witness :
    (ofEdges [("a", "b"), ("b", "a")]).TopSort RangeOrder.stored "a"
        = some ([], some { cycle := ["a", "b", "a"], msg := "cycle error: a -> b -> a" }) ∧
      "cycle error: a -> b -> a" = "cycle error: " ++ " -> ".intercalate ["a", "b", "a"] :=
  ⟨by decide,
    cycle_error_text (ofEdges [("a", "b"), ("b", "a")]) RangeOrder.stored "a" []
      { cycle := ["a", "b", "a"], msg := "cycle error: a -> b -> a" } (Or.inl (by decide))⟩

/-- A self edge `a -> a` sorted from `a` gives the text `cycle error: a -> a`, in both
modes of range order. -/
theorem self_edge_error_text :
    (ofEdges [("a", "a")]).TopSort RangeOrder.stored "a"
        = some ([], some { cycle := ["a", "a"], msg := "cycle error: a -> a" }) ∧
      (ofEdges [("a", "a")]).TopSort RangeOrder.reversed "a"
        = some ([], some { cycle := ["a", "a"], msg := "cycle error: a -> a" }) := by
  decide

/-! ## Results and errors -/

/-- C8. No partial result on error: when `TopSort` or `StableTopSort` returns an error, the
key sequence returned with it is empty. -/
theorem no_partial_result (g : Graph Key) (ro : RangeOrder Key) (key : Key) (seq : List Key)
    (e : CycleError Key)
    (h : g.TopSort ro key = some (seq, some e) ∨ g.StableTopSort ro key = some (seq, some e)) :
    seq = [] := by
  obtain ⟨stable, hs⟩ := sort_cases h
  exact (doTopSort_err hs).1

/-- The accumulator of `visit` can hold keys when the error is found, and `TopSort` still
returns none of them: with the edges `a -> c`, `c -> a`, `a -> b` the key `b` is finished
before the cycle through `c` is met. -/
theorem accumulator_dropped_on_error :
    ((ofEdges [("a", "c"), ("c", "a"), ("a", "b")]).visit RangeOrder.stored
        (ofEdges [("a", "c"), ("c", "a"), ("a", "b")]).fuel "a" newOrderedSet none false).map
        (fun x => (x.1.items, x.2))
        = some (["b"], some { cycle := ["a", "c", "a"], msg := "cycle error: a -> c -> a" }) ∧
      (ofEdges [("a", "c"), ("c", "a"), ("a", "b")]).TopSort RangeOrder.stored "a"
        = some ([], some { cycle := ["a", "c", "a"], msg := "cycle error: a -> c -> a" }) := by
  decide

/-- Instance of C8 on the graph of `accumulator_dropped_on_error`. -/
theorem no_partial_result_witness :
    (ofEdges [("a", "c"), ("c", "a"), ("a", "b")]).TopSort RangeOrder.stored "a"
        = some ([], some { cycle := ["a", "c", "a"], msg := "cycle error: a -> c -> a" }) ∧
      ([] : List String) = [] :=
  ⟨by decide,
    no_partial_result (ofEdges [("a", "c"), ("c", "a"), ("a", "b")]) RangeOrder.stored "a" []
      { cycle := ["a", "c", "a"], msg := "cycle error: a -> c -> a" } (Or.inl (by decide))⟩

/-- C9. Every sort call terminates: for every graph, start key, mode and range order the
recursion of `visit` from the empty accumulator and the nil path comes to a result, the same
one for every amount of fuel from `g.fuel` on, and so `doTopSort` returns.  On a graph built
by `AddNode` and `AddEdge` calls the depth of the recursion is bounded by the number of node
keys plus two (the start key and the call that meets a repeated key): that much fuel gives
the result. -/
theorem sort_terminates (g : Graph Key) (ops : List (Op Key)) (ro : RangeOrder Key) (key : Key)
    (stable : Bool) :
    (∃ res, ∀ fuel, g.fuel ≤ fuel →
        g.visit ro fuel key newOrderedSet none stable = some res) ∧
      (g.doTopSort ro key stable).isSome = true ∧
      (∃ res, ∀ fuel, (build ops).nodes.keys.length + 2 ≤ fuel →
        (build ops).visit ro fuel key newOrderedSet none stable = some res) := by
  have hne := visit_ne_none g ro key stable
  refine ⟨?_, ?_, ?_⟩
  · rcases hx : g.visit ro g.fuel key newOrderedSet none stable with _ | res
    · exact absurd hx hne
    · exact ⟨res, fun fuel hle => visit_mono g ro stable hle hx⟩
  · rcases doTopSort_total g ro key stable with ⟨seq, hs⟩ | ⟨e, he⟩
    · rw [hs]; rfl
    · rw [he]; rfl
  · have hb := visit_ne_none_wellFormed (build ops)
      (wellFormed_foldl ops NewGraph wellFormed_NewGraph) ro key stable
    rcases hx : (build ops).visit ro ((build ops).nodes.keys.length + 2) key newOrderedSet none
        stable with _ | res
    · exact absurd hx hb
    · exact ⟨res, fun fuel hle => visit_mono (build ops) ro stable hle hx⟩

/-! ## The stable mode -/

section Stable

variable [IsTotal Key (fun a b => a ≤ b)] [IsTrans Key (fun a b => a ≤ b)]
  [IsAntisymm Key (fun a b => a ≤ b)]

theorem sort_enum (ro : RangeOrder Key) (path keys : List Key) :
    List.insertionSort (fun a b => a ≤ b) (ro.enum path keys)
      = List.insertionSort (fun a b => a ≤ b) keys :=
  List.eq_of_perm_of_sorted
    ((List.perm_insertionSort _ _).trans
      ((ro.perm path keys).trans (List.perm_insertionSort _ _).symm))
    (List.sorted_insertionSort _ _) (List.sorted_insertionSort _ _)

theorem visit_stable_indep (g : Graph Key) (ro ro' : RangeOrder Key) :
    ∀ (fuel : Nat) (key : Key) (R : orderedset Key) (V : Option (orderedset Key)),
      g.visit ro fuel key R V true = g.visit ro' fuel key R V true := by
  intro fuel
  induction fuel with
  | zero => intro key R V; rfl
  | succ fuel ih =>
    intro key R V
    rw [Graph.visit, Graph.visit]
    have hfun : (fun edge results => g.visit ro fuel edge results
        (some ((V.getD newOrderedSet).add key).1.copy) true)
        = (fun edge results => g.visit ro' fuel edge results
        (some ((V.getD newOrderedSet).add key).1.copy) true) := by
      funext e r
      exact ih e r _
    have hsort : List.insertionSort (fun x1 x2 => x1 ≤ x2)
        ((g.node key).edges ro ((V.getD newOrderedSet).add key).1.items)
        = List.insertionSort (fun x1 x2 => x1 ≤ x2)
        ((g.node key).edges ro' ((V.getD newOrderedSet).add key).1.items) := by
      unfold nodeimpl.edges
      rw [sort_enum, sort_enum]
    simp only [if_true, hfun, hsort]

/-- C6. `StableTopSort` is deterministic: for every graph and start key its outcome, the
returned sequence or the error, is the same under every range order of the edge maps. -/
theorem stable_deterministic (g : Graph Key) (ro ro' : RangeOrder Key) (key : Key) :
    g.StableTopSort ro key = g.StableTopSort ro' key := by
  unfold Graph.StableTopSort Graph.doTopSort
  rw [visit_stable_indep g ro ro']

theorem foldl_addItem_eq (l : List Key) :
    ∀ acc : List Key, l.foldl addItem acc = acc ++ (keepFirst l).filter (fun y => y ∉ acc) := by
  induction l with
  | nil => intro acc; simp [keepFirst]
  | cons x l ih =>
    intro acc
    rw [List.foldl_cons, ih, keepFirst]
    by_cases hx : x ∈ acc
    · have ha : addItem acc x = acc := by simp [addItem, hx]
      rw [ha, List.filter_cons]
      simp only [hx, not_true_eq_false, decide_False, Bool.false_eq_true, if_false,
        List.filter_filter]
      congr 1
      apply List.filter_congr
      intro y _
      by_cases hy : y ∈ acc
      · simp [hy]
      · have : y ≠ x := fun h => hy (h ▸ hx)
        simp [hy, this]
    · have ha : addItem acc x = acc ++ [x] := by simp [addItem, hx]
      rw [ha, List.filter_cons]
      simp only [hx, not_false_eq_true, decide_True, if_true, List.filter_filter,
        List.append_assoc, List.singleton_append]
      congr 2
      apply List.filter_congr
      intro y _
      by_cases hy : y ∈ acc <;> by_cases hyx : y = x <;> simp [hy, hyx]

theorem keepFirst_eq_foldl (l : List Key) : keepFirst l = l.foldl addItem [] := by
  rw [foldl_addItem_eq]
  simp

theorem forEdgesL_fold {fL : Key → List Key → Option (ListResult Key)} (p : Key → List Key) :
    ∀ (es r r' : List Key),
      (∀ e ∈ es, ∀ r r', fL e r = some (r', none) → r' = (p e).foldl addItem r) →
      forEdgesL fL es r = some (r', none) → r' = (es.flatMap p).foldl addItem r := by
  intro es
  induction es with
  | nil =>
    intro r r' _ h
    simp only [forEdgesL, Option.some.injEq, Prod.mk.injEq, and_true] at h
    simp [h]
  | cons e es ih =>
    intro r r' hf h
    obtain ⟨r1, h1, h2⟩ := forEdgesL_ok_cons h
    have e1 := hf e (List.mem_cons_self _ _) r r1 h1
    have e2 := ih r1 r' (fun e' he' => hf e' (List.mem_cons_of_mem _ he')) h2
    rw [List.flatMap_cons, List.foldl_append, ← e1, e2]

theorem edgeList_stable (g : Graph Key) (ro : RangeOrder Key) (path : List Key) (key : Key) :
    g.edgeList ro true path key = (g.node key).keys.insertionSort (fun a b => a ≤ b) := by
  unfold Graph.edgeList nodeimpl.edges
  simp only [if_true]
  exact sort_enum ro path _

theorem visitL_post (g : Graph Key) (ro : RangeOrder Key) :
    ∀ (fuel : Nat) (key : Key) (r path r' : List Key),
      g.visitL ro true fuel key r path = some (r', none) →
      r' = (g.post fuel key).foldl addItem r := by
  intro fuel
  induction fuel with
  | zero => intro key r path r' h; simp [Graph.visitL] at h
  | succ fuel ih =>
    intro key r path r' h
    rw [Graph.visitL] at h
    by_cases hk : key ∈ path
    · simp [hk] at h
    · simp only [hk, if_false] at h
      rcases hx : forEdgesL (fun edge results =>
          g.visitL ro true fuel edge results (path ++ [key]))
          (g.edgeList ro true (path ++ [key]) key) r with _ | ⟨r1, _ | c⟩ <;>
        rw [hx] at h <;> simp at h
      subst h
      have hfold := forEdgesL_fold (g.post fuel) _ r r1
        (fun e _ r0 r0' h0 => ih e r0 (path ++ [key]) r0' h0) hx
      rw [edgeList_stable] at hfold
      rw [Graph.post, List.foldl_append, ← hfold]
      rfl

theorem doTopSort_ok_fuel {g : Graph Key} {ro : RangeOrder Key} {key : Key} {stable : Bool}
    {seq : List Key} (h : g.doTopSort ro key stable = some (seq, none)) (n : Nat)
    (hn : g.fuel ≤ n) : g.visitL ro stable n key [] [] = some (seq, none) := by
  have href := visit_refines g ro stable n key newOrderedSet none newOrderedSet_wf
    (fun P hP => by cases hP)
  unfold Graph.doTopSort at h
  rcases hx : g.visit ro g.fuel key newOrderedSet none stable with _ | ⟨R, _ | err⟩ <;>
    rw [hx] at h <;> simp at h
  rw [visit_mono g ro stable hn hx] at href
  simp only [Option.getD_none] at href
  rcases hy : g.visitL ro stable n key (newOrderedSet : orderedset Key).items
      (newOrderedSet : orderedset Key).items with _ | ⟨r, c⟩ <;> rw [hy] at href
  · exact href.elim
  · obtain ⟨-, h2, h3⟩ := href
    have hy' : g.visitL ro stable n key [] [] = some (r, c) := hy
    rw [hy', ← h, h2, ← h3]
    rfl

/-- C7. `StableTopSort` equals the ascending-order reference: for every graph and start key
from which no cycle can be reached, `StableTopSort` returns, without error, the naive
post-order listing `post` of the start key (children in ascending key order) with only the
first occurrence of each key kept; the listing is taken to any depth from `g.fuel` on. -/
theorem stable_eq_reference (g : Graph Key) (ro : RangeOrder Key) (key : Key)
    (hacyclic : ¬ g.CycleFrom key) (depth : Nat) (hdepth : g.fuel ≤ depth) :
    g.StableTopSort ro key = some (keepFirst (g.post depth key), none) := by
  rcases doTopSort_total g ro key true with ⟨seq, hs⟩ | ⟨e, he⟩
  · have hpost := visitL_post g ro depth key [] [] seq (doTopSort_ok_fuel hs depth hdepth)
    rw [keepFirst_eq_foldl, ← hpost]
    exact hs
  · exact absurd ((error_iff_cycleFrom g ro key true).1 ⟨[], e, he⟩) hacyclic

theorem not_cycleFrom_of_rank (g : Graph Key) (rank : Key → Nat)
    (h : ∀ u ∈ g.nodes.keys, ∀ v ∈ (g.node u).keys, rank v < rank u) (s : Key) :
    ¬ g.CycleFrom s := by
  have hedge : ∀ u v, g.HasEdge u v → rank v < rank u := fun u v huv =>
    h u (AList.mem_keys.1 (hasEdge_mem g huv)) v huv
  have htrans : ∀ u v, Relation.TransGen g.HasEdge u v → rank v < rank u := by
    intro u v huv
    induction huv with
    | single h1 => exact hedge _ _ h1
    | tail _ h2 ih => exact lt_trans (hedge _ _ h2) ih
  rintro ⟨c, -, hcc⟩
  exact absurd (htrans c c hcc) (lt_irrefl _)

end Stable

/-- Instance of C6 on the graph of `TestStableSort`: the stored order and the reversed
order of the edge maps give the same outcome. -/
theorem stable_deterministic_witness :
    stableTestGraph.StableTopSort RangeOrder.stored 1
      = stableTestGraph.StableTopSort RangeOrder.reversed 1 :=
  stable_deterministic stableTestGraph RangeOrder.stored RangeOrder.reversed 1

/-- The scenario of `TestStableSort`: `[x, b, y, c, z, d, a]` under either range order, while
`TopSort` gives `[z, d, y, c, x, b, a]` under the stored order. -/
theorem stable_test_scenario :
    stableTestGraph.StableTopSort RangeOrder.stored 1 = some ([24, 2, 25, 3, 26, 4, 1], none) ∧
      stableTestGraph.StableTopSort RangeOrder.reversed 1
        = some ([24, 2, 25, 3, 26, 4, 1], none) ∧
      stableTestGraph.TopSort RangeOrder.stored 1 = some ([26, 4, 25, 3, 24, 2, 1], none) := by
  decide

/-- Instance of C7 on the graph of `TestStableSort`: no cycle is reached from `a`, and the
reference listing with first occurrences kept is `[x, b, y, c, z, d, a]`. -/
theorem stable_eq_reference_witness :
    ¬ stableTestGraph.CycleFrom 1 ∧ stableTestGraph.fuel ≤ stableTestGraph.fuel ∧
      stableTestGraph.StableTopSort RangeOrder.reversed 1
        = some (keepFirst (stableTestGraph.post stableTestGraph.fuel 1), none) ∧
      keepFirst (stableTestGraph.post stableTestGraph.fuel 1) = [24, 2, 25, 3, 26, 4, 1] :=
  ⟨not_cycleFrom_of_rank stableTestGraph (fun k => 30 - k) (by decide) 1, le_refl _,
    stable_eq_reference stableTestGraph RangeOrder.reversed 1
      (not_cycleFrom_of_rank stableTestGraph (fun k => 30 - k) (by decide) 1)
      stableTestGraph.fuel (le_refl _),
    by decide⟩

end TraversalProofs

/-! ## The ordered set contract -/

theorem wf_foldl_apply (ops : List (SetOp Key)) :
    ∀ s : orderedset Key, s.wf → (ops.foldl orderedset.apply s).wf := by
  induction ops with
  | nil => intro s h; exact h
  | cons op ops ih =>
    intro s h
    refine ih (s.apply op) ?_
    cases op with
    | add item => exact (add_items h item).2
    | copy => exact (copy_wf_items h.1).1

theorem wf_buildSet (ops : List (SetOp Key)) : (buildSet ops).wf :=
  wf_foldl_apply ops newOrderedSet newOrderedSet_wf

theorem repInv_of_wf {s : orderedset Key} (h : s.wf) : s.RepInv := by
  refine ⟨h.1, h.2.1, fun k hk => ?_, fun k hk => ?_⟩
  · exact ⟨s.items.indexOf k, index_of_mem h hk, List.getElem?_indexOf hk⟩
  · have h3 := h.2.2 k
    simp only [hk, if_false] at h3
    simp [orderedset.index, h3]

/-- C19. Contract of `add`: on an ordered set that satisfies its invariant, `add(k)` returns
true exactly when `k` was not present; then `k` is appended as the last item and every
earlier item keeps its position; when `k` is present, `add(k)` returns false and leaves the
set (items, indexes and length) unchanged. -/
theorem add_contract (s : orderedset Key) (hs : s.wf) (k : Key) :
    ((s.add k).2 = true ↔ k ∉ s.items) ∧
      (k ∉ s.items → (s.add k).1.items = s.items ++ [k] ∧
        (s.add k).1.items.getLast? = some k ∧
        ∀ i, i < s.items.length → (s.add k).1.items[i]? = s.items[i]?) ∧
      (k ∈ s.items → (s.add k).2 = false ∧ (s.add k).1 = s) := by
  refine ⟨?_, fun hk => ?_, fun hk => ?_⟩
  · by_cases hk : k ∈ s.items
    · rw [add_of_mem hs hk]
      simp [hk]
    · simp [hk, (add_of_not_mem hs hk).1]
  · obtain ⟨-, h2, -⟩ := add_of_not_mem hs hk
    refine ⟨h2, ?_, fun i hi => ?_⟩
    · rw [h2, List.getLast?_concat]
    · rw [h2, List.getElem?_append_left hi]
  · rw [add_of_mem hs hk]
    exact ⟨rfl, rfl⟩

/-- Instance of C19 on the set holding `a`, `b`, with the absent key `c`. -/
theorem add_contract_witness :
    setAB.wf ∧ (((setAB.add "c").2 = true ↔ "c" ∉ setAB.items) ∧
      ("c" ∉ setAB.items → (setAB.add "c").1.items = setAB.items ++ ["c"] ∧
        (setAB.add "c").1.items.getLast? = some "c" ∧
        ∀ i, i < setAB.items.length → (setAB.add "c").1.items[i]? = setAB.items[i]?) ∧
      ("c" ∈ setAB.items → (setAB.add "c").2 = false ∧ (setAB.add "c").1 = setAB)) :=
  ⟨wf_buildSet _, add_contract setAB (wf_buildSet _) "c"⟩

/-- The calls of `add` on the set holding `a`, `b`: a new key is appended and reported as
new, a present key is reported as present and nothing changes. -/
theorem add_scenario :
    setAB.items = ["a", "b"] ∧ (setAB.add "c").2 = true ∧
      (setAB.add "c").1.items = ["a", "b", "c"] ∧ (setAB.add "c").1.length = 3 ∧
      (setAB.add "c").1.index "c" = 2 ∧ (setAB.add "a").2 = false ∧
      (setAB.add "a").1.items = ["a", "b"] ∧ (setAB.add "a").1.index "a" = 0 := by
  decide

/-- C20. Representation invariant of the ordered set: every ordered set reached from
`newOrderedSet` by calls of `add` and `copy` has no duplicate items, has `length` equal to
the number of items, and for every key `index` gives a position holding that key when the
key is present and `-1` when it is absent; `copy` of such a set has the same items in the
same order and satisfies the same invariant. -/
theorem set_invariant (ops : List (SetOp Key)) :
    (buildSet ops).RepInv ∧ (buildSet ops).copy.items = (buildSet ops).items ∧
      (buildSet ops).copy.RepInv := by
  have h := wf_buildSet ops
  have hc := copy_wf_items h.1
  exact ⟨repInv_of_wf h, hc.2, repInv_of_wf hc.1⟩

/-- The invariant on a concrete run: after adding `a`, `b`, `a` and copying, the items are
`a`, `b`, the length is 2, and `index` answers 0, 1 and `-1` for `a`, `b` and `z`. -/
theorem ordered_set_scenario :
    (buildSet [SetOp.add "a", SetOp.add "b", SetOp.add "a", SetOp.copy]).items = ["a", "b"] ∧
      (buildSet [SetOp.add "a", SetOp.add "b", SetOp.add "a", SetOp.copy]).length = 2 ∧
      (buildSet [SetOp.add "a", SetOp.add "b", SetOp.add "a", SetOp.copy]).index "a" = 0 ∧
      (buildSet [SetOp.add "a", SetOp.add "b", SetOp.add "a", SetOp.copy]).index "b" = 1 ∧
      (buildSet [SetOp.add "a", SetOp.add "b", SetOp.add "a", SetOp.copy]).index "z" = -1 := by
  decide

/-! ## Repeating and reordering construction calls -/

theorem addNode_of_contains {g : Graph Key} {k : Key} (h : g.ContainsNode k = true) :
    g.AddNode k = g := by
  simp [Graph.AddNode, h]

theorem addEdge_nodes (g : Graph Key) (s d : Key) :
    (g.AddEdge s d).nodes
      = ((g.AddNode s).AddNode d).nodes.insert s ((g.node s).addEdge d) := by
  unfold Graph.AddEdge
  simp only [getOrAddNode_fst, getOrAddNode_snd]

theorem addEdge_addEdge (g : Graph Key) (s d : Key) :
    (g.AddEdge s d).AddEdge s d = g.AddEdge s d := by
  have hs : (g.AddEdge s d).ContainsNode s = true :=
    (containsNode_AddEdge g s d s).2 (Or.inl rfl)
  have hd : (g.AddEdge s d).ContainsNode d = true :=
    (containsNode_AddEdge g s d d).2 (Or.inr (Or.inl rfl))
  have hnode : (g.AddEdge s d).node s = (g.node s).addEdge d := by
    rw [node_AddEdge]; simp
  have hn : ((g.AddEdge s d).AddEdge s d).nodes = (g.AddEdge s d).nodes := by
    rw [addEdge_nodes (g.AddEdge s d), addNode_of_contains hs, addNode_of_contains hd, hnode]
    have hadd : ((g.node s).addEdge d).addEdge d = (g.node s).addEdge d := by
      unfold nodeimpl.addEdge
      exact AList.insert_insert _
    rw [hadd, addEdge_nodes g, AList.insert_insert]
  cases hg : (g.AddEdge s d).AddEdge s d with
  | mk nodes =>
    cases hg' : g.AddEdge s d with
    | mk nodes' =>
      rw [hg, hg'] at hn
      exact congrArg Graph.mk hn

/-- C12. `AddNode` is a no-op on an existing node: for a key `k` that is present,
`AddNode(k)` leaves the whole graph unchanged, so `k` keeps its recorded edges; for `k`
absent, `AddNode(k)` makes `k` a node with an empty edge map and leaves the entry of every
other key as it was. -/
theorem addNode_frame (g : Graph Key) (k : Key) :
    (g.ContainsNode k = true → g.AddNode k = g) ∧
      (g.ContainsNode k = false →
        (g.AddNode k).ContainsNode k = true ∧ (g.AddNode k).nodes.lookup k = some ∅ ∧
        ∀ k', k' ≠ k → (g.AddNode k).nodes.lookup k' = g.nodes.lookup k') := by
  refine ⟨addNode_of_contains, fun h => ?_⟩
  have hadd : g.AddNode k = { nodes := g.nodes.insert k ∅ } := by
    simp [Graph.AddNode, h]
  refine ⟨(containsNode_AddNode g k k).2 (Or.inl rfl), ?_, fun k' hk' => ?_⟩
  · rw [hadd]
    exact AList.lookup_insert _
  · rw [hadd]
    exact AList.lookup_insert_ne hk'

/-- The two cases of C12 on a graph with the edge `a -> b`: `AddNode(a)` changes nothing,
`AddNode(c)` adds `c` without edges and keeps the edge of `a`. -/
theorem addNode_scenario :
    (ofEdges [("a", "b")]).AddNode "a" = ofEdges [("a", "b")] ∧
      ((ofEdges [("a", "b")]).AddNode "c").ContainsNode "c" = true ∧
      (((ofEdges [("a", "b")]).AddNode "c").node "c").keys = [] ∧
      (((ofEdges [("a", "b")]).AddNode "c").node "a").keys = ["b"] := by
  refine ⟨addNode_of_contains (by decide), by decide, by decide, by decide⟩

theorem same_AddEdge_AddEdge (g : Graph Key) (a b c d : Key) :
    ((g.AddEdge a b).AddEdge c d).Same ((g.AddEdge c d).AddEdge a b) := by
  intro k
  refine ⟨Bool.eq_iff_iff.2 ?_, fun v => ?_⟩
  · simp only [containsNode_AddEdge]
    tauto
  · simp only [hasEdge_AddEdge]
    tauto

theorem same_AddNode_AddNode (g : Graph Key) (a b : Key) :
    ((g.AddNode a).AddNode b).Same ((g.AddNode b).AddNode a) := by
  intro k
  refine ⟨Bool.eq_iff_iff.2 ?_, fun v => ?_⟩
  · simp only [containsNode_AddNode]
    tauto
  · simp only [hasEdge_AddNode]

theorem same_AddNode_AddEdge (g : Graph Key) (a c d : Key) :
    ((g.AddNode a).AddEdge c d).Same ((g.AddEdge c d).AddNode a) := by
  intro k
  refine ⟨Bool.eq_iff_iff.2 ?_, fun v => ?_⟩
  · simp only [containsNode_AddNode, containsNode_AddEdge]
    tauto
  · simp only [hasEdge_AddNode, hasEdge_AddEdge]

section Reordering

variable [LE Key] [DecidableRel (fun a b : Key => a ≤ b)] [Sprintf Key]

/-- C11. Idempotence of construction: `AddNode(k)` performed twice gives the same graph as
performed once, and so does `AddEdge(src, dst)`; hence `TopSort` and `StableTopSort` return
the same after the repetition as without it. -/
theorem construction_idempotent (g : Graph Key) (k src dst : Key) (ro : RangeOrder Key)
    (key : Key) :
    (g.AddNode k).AddNode k = g.AddNode k ∧
      (g.AddEdge src dst).AddEdge src dst = g.AddEdge src dst ∧
      ((g.AddNode k).AddNode k).TopSort ro key = (g.AddNode k).TopSort ro key ∧
      ((g.AddNode k).AddNode k).StableTopSort ro key = (g.AddNode k).StableTopSort ro key ∧
      ((g.AddEdge src dst).AddEdge src dst).TopSort ro key
        = (g.AddEdge src dst).TopSort ro key ∧
      ((g.AddEdge src dst).AddEdge src dst).StableTopSort ro key
        = (g.AddEdge src dst).StableTopSort ro key := by
  have h1 : (g.AddNode k).AddNode k = g.AddNode k :=
    addNode_of_contains ((containsNode_AddNode g k k).2 (Or.inl rfl))
  have h2 := addEdge_addEdge g src dst
  refine ⟨h1, h2, ?_, ?_, ?_, ?_⟩
  · rw [h1]
  · rw [h1]
  · rw [h2]
  · rw [h2]

/-- Repeating every call of `TestTopSort2` leaves the stored edge sets and the result as
they are. -/
theorem idempotent_scenario :
    ((ofEdges [("a", "c"), ("a", "c"), ("a", "b"), ("a", "b"), ("b", "c"), ("b", "c")]).node
        "a").keys = ((ofEdges [("a", "c"), ("a", "b"), ("b", "c")]).node "a").keys ∧
      (ofEdges [("a", "c"), ("a", "c"), ("a", "b"), ("a", "b"), ("b", "c"), ("b", "c")]).TopSort
        RangeOrder.stored "a" = some (["c", "b", "a"], none) ∧
      (ofEdges [("a", "c"), ("a", "b"), ("b", "c")]).TopSort RangeOrder.stored "a"
        = some (["c", "b", "a"], none) := by
  decide

section ReorderingStable

variable [IsTotal Key (fun a b => a ≤ b)] [IsTrans Key (fun a b => a ≤ b)]
  [IsAntisymm Key (fun a b => a ≤ b)]

theorem same_sorted_keys {g1 g2 : Graph Key} (h : g1.Same g2) (k : Key) :
    List.insertionSort (fun a b => a ≤ b) (g1.node k).keys
      = List.insertionSort (fun a b => a ≤ b) (g2.node k).keys := by
  have hperm : (g1.node k).keys.Perm (g2.node k).keys :=
    (List.perm_ext_iff_of_nodup (AList.keys_nodup _) (AList.keys_nodup _)).2
      (fun v => (h k).2 v)
  exact List.eq_of_perm_of_sorted
    ((List.perm_insertionSort _ _).trans (hperm.trans (List.perm_insertionSort _ _).symm))
    (List.sorted_insertionSort _ _) (List.sorted_insertionSort _ _)

theorem visit_stable_same {g1 g2 : Graph Key} (h : g1.Same g2) (ro1 ro2 : RangeOrder Key) :
    ∀ (fuel : Nat) (key : Key) (R : orderedset Key) (V : Option (orderedset Key)),
      g1.visit ro1 fuel key R V true = g2.visit ro2 fuel key R V true := by
  intro fuel
  induction fuel with
  | zero => intro key R V; rfl
  | succ fuel ih =>
    intro key R V
    rw [Graph.visit, Graph.visit]
    have hfun : (fun edge results => g1.visit ro1 fuel edge results
        (some ((V.getD newOrderedSet).add key).1.copy) true)
        = (fun edge results => g2.visit ro2 fuel edge results
        (some ((V.getD newOrderedSet).add key).1.copy) true) := by
      funext e r
      exact ih e r _
    have hsort : List.insertionSort (fun x1 x2 => x1 ≤ x2)
        ((g1.node key).edges ro1 ((V.getD newOrderedSet).add key).1.items)
        = List.insertionSort (fun x1 x2 => x1 ≤ x2)
        ((g2.node key).edges ro2 ((V.getD newOrderedSet).add key).1.items) := by
      unfold nodeimpl.edges
      rw [sort_enum, sort_enum]
      exact same_sorted_keys h key
    simp only [if_true, hfun, hsort]

theorem stable_same {g1 g2 : Graph Key} (h : g1.Same g2) (ro1 ro2 : RangeOrder Key)
    (key : Key) : g1.StableTopSort ro1 key = g2.StableTopSort ro2 key := by
  rcases hx : g1.visit ro1 g1.fuel key newOrderedSet none true with _ | x
  · exact absurd hx (visit_ne_none g1 ro1 key true)
  · rcases hy : g2.visit ro2 g2.fuel key newOrderedSet none true with _ | y
    · exact absurd hy (visit_ne_none g2 ro2 key true)
    · have hx' := visit_mono g1 ro1 true (Nat.le_add_right g1.fuel g2.fuel) hx
      have hy' := visit_mono g2 ro2 true (Nat.le_add_left g2.fuel g1.fuel) hy
      rw [visit_stable_same h ro1 ro2, hy'] at hx'
      have hxy : y = x := Option.some.inj hx'
      unfold Graph.StableTopSort Graph.doTopSort
      rw [hx, hy, hxy]

/-- C18. Construction order does not matter: `AddEdge(a, b)` followed by `AddEdge(c, d)`
gives a graph with the same node set and the same edge sets as the two calls in the other
order, `AddNode` commutes likewise with `AddNode` and with `AddEdge`, and two graphs with
the same node set and edge sets give the same `StableTopSort` outcome. -/
theorem construction_commutes (g : Graph Key) (a b c d : Key) :
    ((g.AddEdge a b).AddEdge c d).Same ((g.AddEdge c d).AddEdge a b) ∧
      ((g.AddNode a).AddNode b).Same ((g.AddNode b).AddNode a) ∧
      ((g.AddNode a).AddEdge c d).Same ((g.AddEdge c d).AddNode a) ∧
      ∀ (g1 g2 : Graph Key) (ro1 ro2 : RangeOrder Key) (key : Key),
        g1.Same g2 → g1.StableTopSort ro1 key = g2.StableTopSort ro2 key :=
  ⟨same_AddEdge_AddEdge g a b c d, same_AddNode_AddNode g a b, same_AddNode_AddEdge g a c d,
    fun _ _ ro1 ro2 key h => stable_same h ro1 ro2 key⟩

end ReorderingStable

end Reordering

/-- Instance of C18 with numbered keys: the diamond inserted in two different orders has
the same edge sets and the same stable result. -/
theorem reordering_scenario :
    (ofEdges [(1, 2), (1, 3), (3, 2)]).StableTopSort RangeOrder.stored 1
        = some ([2, 3, 1], none) ∧
      (ofEdges [(3, 2), (1, 3), (1, 2)]).StableTopSort RangeOrder.stored 1
        = some ([2, 3, 1], none) ∧
      ((ofEdges [(1, 2), (1, 3), (3, 2)]).node 1).keys = [3, 2] ∧
      ((ofEdges [(3, 2), (1, 3), (1, 2)]).node 1).keys = [2, 3] := by
  decide

/-! ## Shape of a successful result -/

section Shape

variable [LE Key] [DecidableRel (fun a b : Key => a ≤ b)] [Sprintf Key]

theorem forEdgesL_fresh {fL : Key → List Key → Option (ListResult Key)} (Q : Key → Prop) :
    ∀ (es r r' : List Key),
      (∀ e ∈ es, ∀ r r', fL e r = some (r', none) → ∀ x ∈ r', x ∈ r ∨ Q x) →
      forEdgesL fL es r = some (r', none) → ∀ x ∈ r', x ∈ r ∨ Q x := by
  intro es
  induction es with
  | nil =>
    intro r r' _ h
    simp only [forEdgesL, Option.some.injEq, Prod.mk.injEq, and_true] at h
    subst h
    exact fun x hx => Or.inl hx
  | cons e es ih =>
    intro r r' hf h x hx
    obtain ⟨r1, h1, h2⟩ := forEdgesL_ok_cons h
    rcases ih r1 r' (fun e' he' => hf e' (List.mem_cons_of_mem _ he')) h2 x hx with h3 | h3
    · exact hf e (List.mem_cons_self _ _) r r1 h1 x h3
    · exact Or.inr h3

theorem visitL_unfold_ok (g : Graph Key) (ro : RangeOrder Key) (stable : Bool) {fuel : Nat}
    {key : Key} {r path r' : List Key}
    (h : g.visitL ro stable (fuel + 1) key r path = some (r', none)) :
    key ∉ path ∧ ∃ r1, forEdgesL (fun edge results =>
        g.visitL ro stable fuel edge results (path ++ [key]))
        (g.edgeList ro stable (path ++ [key]) key) r = some (r1, none) ∧
      r' = addItem r1 key := by
  rw [Graph.visitL] at h
  by_cases hk : key ∈ path
  · simp [hk] at h
  · simp only [hk, if_false] at h
    rcases hx : forEdgesL (fun edge results =>
        g.visitL ro stable fuel edge results (path ++ [key]))
        (g.edgeList ro stable (path ++ [key]) key) r with _ | ⟨r1, _ | c⟩ <;>
      rw [hx] at h <;> simp at h
    exact ⟨hk, r1, rfl, h.symm⟩

theorem visitL_fresh (g : Graph Key) (ro : RangeOrder Key) (stable : Bool) :
    ∀ (fuel : Nat) (key : Key) (r path r' : List Key),
      g.visitL ro stable fuel key r path = some (r', none) →
      ∀ x ∈ r', x ∈ r ∨ x ∉ path := by
  intro fuel
  induction fuel with
  | zero => intro key r path r' h; simp [Graph.visitL] at h
  | succ fuel ih =>
    intro key r path r' h x hx
    obtain ⟨hk, r1, hloop, rfl⟩ := visitL_unfold_ok g ro stable h
    have hfresh := forEdgesL_fresh (fun x => x ∉ path ++ [key]) _ r r1
      (fun e _ r0 r0' h0 => ih e r0 (path ++ [key]) r0' h0) hloop
    have hx1 : x ∈ r1 ∨ x = key := by
      unfold addItem at hx
      split at hx
      · exact Or.inl hx
      · simpa using hx
    rcases hx1 with hx1 | rfl
    · rcases hfresh x hx1 with h0 | h0
      · exact Or.inl h0
      · exact Or.inr (fun hp => h0 (List.mem_append_left _ hp))
    · exact Or.inr hk

theorem visitL_last (g : Graph Key) (ro : RangeOrder Key) (stable : Bool) {fuel : Nat}
    {key : Key} {r path r' : List Key}
    (h : g.visitL ro stable fuel key r path = some (r', none)) (hk : key ∉ r) :
    r'.getLast? = some key := by
  cases fuel with
  | zero => simp [Graph.visitL] at h
  | succ fuel =>
    obtain ⟨-, r1, hloop, rfl⟩ := visitL_unfold_ok g ro stable h
    have hfresh := forEdgesL_fresh (fun x => x ∉ path ++ [key]) _ r r1
      (fun e _ r0 r0' h0 => visitL_fresh g ro stable fuel e r0 (path ++ [key]) r0' h0) hloop
    have hk1 : key ∉ r1 := by
      intro hmem
      rcases hfresh key hmem with h0 | h0
      · exact hk h0
      · exact h0 (by simp)
    simp [addItem, hk1]

theorem no_edge_of_absent {g : Graph Key} {key : Key} (h : g.ContainsNode key = false)
    (v : Key) : ¬ g.HasEdge key v := by
  intro hv
  have := (containsNode_iff g key).2 (hasEdge_mem g hv)
  rw [h] at this
  exact Bool.false_ne_true this

theorem eq_singleton_of_nodup {l : List Key} {a : Key} (hnd : l.Nodup) (ha : a ∈ l)
    (hall : ∀ x ∈ l, x = a) : l = [a] := by
  match l, hnd, ha, hall with
  | [x], _, _, hall => rw [hall x (by simp)]
  | x :: y :: l, hnd, _, hall =>
    have hx := hall x (by simp)
    have hy := hall y (by simp)
    rw [hx, hy] at hnd
    simp at hnd

theorem doTopSort_absent (g : Graph Key) (ro : RangeOrder Key) (key : Key) (stable : Bool)
    (h : g.ContainsNode key = false) : g.doTopSort ro key stable = some ([key], none) := by
  have hreach : ∀ x, Relation.ReflTransGen g.HasEdge key x → x = key := by
    intro x hx
    rcases Relation.ReflTransGen.cases_head hx with h0 | ⟨c, hc, -⟩
    · exact h0.symm
    · exact absurd hc (no_edge_of_absent h c)
  rcases doTopSort_total g ro key stable with ⟨seq, hs⟩ | ⟨e, he⟩
  · obtain ⟨hkey, hnd, -, hr⟩ := doTopSort_good hs
    rw [hs, eq_singleton_of_nodup hnd hkey (fun x hx => hreach x (hr x hx))]
  · obtain ⟨c, hc, hcc⟩ := (error_iff_cycleFrom g ro key stable).1 ⟨[], e, he⟩
    rw [hreach c hc] at hcc
    obtain ⟨b, hb, -⟩ := Relation.TransGen.head'_iff.1 hcc
    exact absurd hb (no_edge_of_absent h b)

/-- C13. An absent start key is treated as a node without edges: for every graph and every
key that is not a node of it, `TopSort` and `StableTopSort` from that key return the
one-element sequence holding the key, and no error. -/
theorem absent_start_key (g : Graph Key) (ro : RangeOrder Key) (key : Key)
    (h : g.ContainsNode key = false) :
    g.TopSort ro key = some ([key], none) ∧ g.StableTopSort ro key = some ([key], none) :=
  ⟨doTopSort_absent g ro key false h, doTopSort_absent g ro key true h⟩

/-- Instance of C13: the key `q` is not a node of the graph with the edge `a -> b`. -/
theorem absent_start_key_witness :
    (ofEdges [("a", "b")]).ContainsNode "q" = false ∧
      (ofEdges [("a", "b")]).TopSort RangeOrder.stored "q" = some (["q"], none) ∧
      (ofEdges [("a", "b")]).StableTopSort RangeOrder.stored "q" = some (["q"], none) :=
  ⟨by decide, absent_start_key (ofEdges [("a", "b")]) RangeOrder.stored "q" (by decide)⟩

/-- C16. The start key is finalized last: when `TopSort` or `StableTopSort` returns the
sequence `seq` without error, `seq` is not empty and its last element is the start key. -/
theorem start_key_last (g : Graph Key) (ro : RangeOrder Key) (key : Key) (seq : List Key)
    (h : g.TopSort ro key = some (seq, none) ∨ g.StableTopSort ro key = some (seq, none)) :
    seq ≠ [] ∧ seq.getLast? = some key := by
  obtain ⟨stable, hs⟩ := sort_cases h
  have hlast := visitL_last g ro stable (doTopSort_ok hs) (by simp)
  refine ⟨fun hnil => ?_, hlast⟩
  rw [hnil] at hlast
  simp at hlast

/-- Instance of C16 on the graph of `TestTopSort3`. -/
theorem start_key_last_witness :
    (ofEdges [("a", "b"), ("a", "d"), ("d", "c"), ("c", "b")]).TopSort RangeOrder.stored "a"
        = some (["b", "c", "d", "a"], none) ∧
      ["b", "c", "d", "a"] ≠ [] ∧ ["b", "c", "d", "a"].getLast? = some "a" :=
  ⟨by decide,
    start_key_last (ofEdges [("a", "b"), ("a", "d"), ("d", "c"), ("c", "b")])
      RangeOrder.stored "a" ["b", "c", "d", "a"] (Or.inl (by decide))⟩

/-- C15. The result of `TopSort` can depend on the range order of an edge map: on the graph
of `TestNonStable`, sorted from `a`, the stored order and the reversed order of the edge maps
give two different sequences, both without error, and in both every edge has its target
before its source. -/
theorem topSort_order_dependent :
    nonStableTestGraph.TopSort RangeOrder.stored "a"
        = some (["z", "d", "y", "c", "x", "b", "a"], none) ∧
      nonStableTestGraph.TopSort RangeOrder.reversed "a"
        = some (["x", "b", "y", "c", "z", "d", "a"], none) ∧
      ["z", "d", "y", "c", "x", "b", "a"] ≠ ["x", "b", "y", "c", "z", "d", "a"] ∧
      Closed nonStableTestGraph ["z", "d", "y", "c", "x", "b", "a"] ∧
      Closed nonStableTestGraph ["x", "b", "y", "c", "z", "d", "a"] := by
  have h1 : nonStableTestGraph.TopSort RangeOrder.stored "a"
      = some (["z", "d", "y", "c", "x", "b", "a"], none) := by decide
  have h2 : nonStableTestGraph.TopSort RangeOrder.reversed "a"
      = some (["x", "b", "y", "c", "z", "d", "a"], none) := by decide
  exact ⟨h1, h2, by decide, (doTopSort_good h1).2.2.1, (doTopSort_good h2).2.2.1⟩

end Shape

/-! ## The fast path for finished keys -/

section Skip

variable [LE Key] [DecidableRel (fun a b : Key => a ≤ b)] [Sprintf Key]

theorem forEdgesL_const {fL : Key → List Key → Option (ListResult Key)} (r : List Key) :
    ∀ (es : List Key) (x : ListResult Key),
      (∀ e ∈ es, ∀ y, fL e r = some y → y = (r, none)) →
      forEdgesL fL es r = some x → x = (r, none) := by
  intro es
  induction es with
  | nil => intro x _ h; simpa [forEdgesL, eq_comm] using h
  | cons e es ih =>
    intro x hf h
    simp only [forEdgesL] at h
    rcases hx : fL e r with _ | ⟨r1, _ | c⟩ <;> rw [hx] at h
    · simp at h
    · have h1 := hf e (List.mem_cons_self _ _) _ hx
      simp only [Prod.mk.injEq, and_true] at h1
      subst h1
      exact ih x (fun e' he' => hf e' (List.mem_cons_of_mem _ he')) h
    · have h1 := hf e (List.mem_cons_self _ _) _ hx
      simp at h1

theorem visitL_revisit (g : Graph Key) (ro : RangeOrder Key) (stable : Bool) :
    ∀ (fuel : Nat) (key : Key) (r path : List Key) (x : ListResult Key),
      Closed g r → key ∈ r → (∀ p ∈ path, p ∈ r → r.indexOf key < r.indexOf p) →
      g.visitL ro stable fuel key r path = some x → x = (r, none) := by
  intro fuel
  induction fuel with
  | zero => intro key r path x _ _ _ h; simp [Graph.visitL] at h
  | succ fuel ih =>
    intro key r path x hc hkey hpath h
    rw [Graph.visitL] at h
    have hk : key ∉ path := fun hp => absurd (hpath key hp hkey) (lt_irrefl _)
    simp only [hk, if_false] at h
    have hloop : ∀ y, forEdgesL (fun edge results =>
        g.visitL ro stable fuel edge results (path ++ [key]))
        (g.edgeList ro stable (path ++ [key]) key) r = some y → y = (r, none) := by
      intro y hy
      refine forEdgesL_const r _ y (fun e he y0 h0 => ?_) hy
      obtain ⟨hmem, hlt⟩ := hc key hkey e ((mem_edgeList g ro stable _ _ _).1 he)
      refine ih e r (path ++ [key]) y0 hc hmem (fun p hp hpr => ?_) h0
      rcases List.mem_append.1 hp with hp | hp
      · exact lt_trans hlt (hpath p hp hpr)
      · have hpk : p = key := by simpa using hp
        rw [hpk]
        exact hlt
    rcases hx : forEdgesL (fun edge results =>
        g.visitL ro stable fuel edge results (path ++ [key]))
        (g.edgeList ro stable (path ++ [key]) key) r with _ | y
    · rw [hx] at h; simp at h
    · rw [hx, hloop y hx] at h
      simp only [Option.some.injEq] at h
      rw [← h]
      simp [addItem, hkey]

theorem forEdgesL_sim (f f' : Key → List Key → Option (ListResult Key))
    (I : List Key → Prop) :
    ∀ (es r : List Key) (y : ListResult Key),
      (∀ e ∈ es, ∀ r y, I r → f e r = some y → f' e r = some y) →
      (∀ e ∈ es, ∀ r r', I r → f e r = some (r', none) → I r') →
      I r → forEdgesL f es r = some y → forEdgesL f' es r = some y := by
  intro es
  induction es with
  | nil => intro r y _ _ _ h; simpa [forEdgesL] using h
  | cons e es ih =>
    intro r y hsim hpres hI h
    simp only [forEdgesL] at h ⊢
    rcases hx : f e r with _ | ⟨r1, _ | c⟩ <;> rw [hx] at h
    · simp at h
    · rw [hsim e (List.mem_cons_self _ _) r _ hI hx]
      exact ih r1 y (fun e' he' => hsim e' (List.mem_cons_of_mem _ he'))
        (fun e' he' => hpres e' (List.mem_cons_of_mem _ he'))
        (hpres e (List.mem_cons_self _ _) r r1 hI hx) h
    · rw [hsim e (List.mem_cons_self _ _) r _ hI hx]
      exact h

theorem visitL_skip (g : Graph Key) (ro : RangeOrder Key) (stable : Bool) :
    ∀ (fuel : Nat) (key : Key) (r path : List Key) (x : ListResult Key),
      Closed g r → (∀ p ∈ path, p ∉ r) →
      g.visitL ro stable fuel key r path = some x →
      g.visitSkipL ro stable fuel key r path = some x := by
  intro fuel
  induction fuel with
  | zero => intro key r path x _ _ h; simp [Graph.visitL] at h
  | succ fuel ih =>
    intro key r path x hc hpath h
    rw [Graph.visitSkipL]
    by_cases hr : key ∈ r
    · simp only [hr, if_true]
      rw [visitL_revisit g ro stable (fuel + 1) key r path x hc hr
        (fun p hp hpr => absurd hpr (hpath p hp)) h]
    · simp only [hr, if_false]
      rw [Graph.visitL] at h
      by_cases hk : key ∈ path
      · simpa only [hk, if_true] using h
      · simp only [hk, if_false] at h ⊢
        have hsim := forEdgesL_sim
          (fun edge results => g.visitL ro stable fuel edge results (path ++ [key]))
          (fun edge results => g.visitSkipL ro stable fuel edge results (path ++ [key]))
          (fun r0 => Closed g r0 ∧ ∀ p ∈ path ++ [key], p ∉ r0)
          (g.edgeList ro stable (path ++ [key]) key) r
        rcases hx : forEdgesL (fun edge results =>
            g.visitL ro stable fuel edge results (path ++ [key]))
            (g.edgeList ro stable (path ++ [key]) key) r with _ | y
        · rw [hx] at h; simp at h
        · rw [hx] at h
          rw [hsim y (fun e _ r0 y0 hI h0 => ih e r0 (path ++ [key]) y0 hI.1 hI.2 h0)
            (fun e _ r0 r0' hI h0 =>
              ⟨(visitL_good g ro stable fuel e r0 (path ++ [key]) r0' h0).2.2.2.2.2 hI.1,
                fun p hp hpr =>
                  (visitL_fresh g ro stable fuel e r0 (path ++ [key]) r0' h0 p hpr).elim
                    (hI.2 p hp) (fun hn => hn hp)⟩)
            ⟨hc, fun p hp => by
              rcases List.mem_append.1 hp with hp | hp
              · exact hpath p hp
              · have hpk : p = key := by simpa using hp
                rw [hpk]
                exact hr⟩ hx]
          exact h

end Skip

theorem index_ne_iff_mem {s : orderedset Key} (h : s.wf) (k : Key) :
    s.index k ≠ -1 ↔ k ∈ s.items := by
  by_cases hk : k ∈ s.items
  · rw [index_of_mem h hk]
    simp only [hk, iff_true]
    omega
  · have h3 := h.2.2 k
    simp only [hk, if_false] at h3
    simp [orderedset.index, h3, hk]

section SkipRefinement

variable [LE Key] [DecidableRel (fun a b : Key => a ≤ b)] [Sprintf Key]

theorem visitSkip_refines (g : Graph Key) (ro : RangeOrder Key) (stable : Bool) :
    ∀ (fuel : Nat) (key : Key) (R : orderedset Key) (visited : Option (orderedset Key)),
      R.wf → (∀ P, visited = some P → P.wf) →
      Refines (g.visitSkip ro fuel key R visited stable)
        (g.visitSkipL ro stable fuel key R.items (visited.getD newOrderedSet).items) := by
  intro fuel
  induction fuel with
  | zero => intro key R visited _ _; simp [Graph.visitSkip, Graph.visitSkipL, Refines]
  | succ fuel ih =>
    intro key R visited hR hP
    have hV : (visited.getD newOrderedSet).wf := by
      cases visited with
      | none => exact newOrderedSet_wf
      | some P => exact hP P rfl
    rw [Graph.visitSkip, Graph.visitSkipL]
    generalize visited.getD newOrderedSet = V at hV
    by_cases hr : key ∈ R.items
    · have hi : R.index key ≠ -1 := (index_ne_iff_mem hR key).2 hr
      simp only [hi, hr, if_true, ne_eq, not_false_eq_true]
      exact ⟨hR, rfl, rfl⟩
    · have hi : ¬ R.index key ≠ -1 := fun h0 => hr ((index_ne_iff_mem hR key).1 h0)
      simp only [hi, hr, if_false]
      by_cases hk : key ∈ V.items
      · have hidx : (V.index key).toNat = V.items.indexOf key := by
          rw [index_of_mem hV hk]; simp
        simp only [add_of_mem hV hk, hk, if_true, hidx]
        exact ⟨hR, rfl, rfl⟩
      · obtain ⟨a1, a2, a3⟩ := add_of_not_mem hV hk
        have hc := copy_wf_items a3.1
        have hf : ∀ e R', R'.wf →
            Refines (g.visitSkip ro fuel e R' (some (V.add key).1.copy) stable)
              (g.visitSkipL ro stable fuel e R'.items (V.items ++ [key])) := by
          intro e R' hR'
          have := ih e R' (some (V.add key).1.copy) hR' (fun P hPe => by
            cases hPe; exact hc.1)
          simpa [hc.2, a2] using this
        have hloop := forEdges_refines
          (fun edge results =>
            g.visitSkip ro fuel edge results (some (V.add key).1.copy) stable)
          (fun edge results => g.visitSkipL ro stable fuel edge results (V.items ++ [key]))
          hf (g.edgeList ro stable (V.items ++ [key]) key) R hR
        have hedges : (if stable = true then
            List.insertionSort (fun x1 x2 => x1 ≤ x2) ((g.node key).edges ro (V.items ++ [key]))
            else (g.node key).edges ro (V.items ++ [key])) =
            g.edgeList ro stable (V.items ++ [key]) key := rfl
        simp only [hk, if_false, a1, a2, Bool.not_true, Bool.false_eq_true, hedges]
        rcases hx : forEdges (fun edge results =>
            g.visitSkip ro fuel edge results (some (V.add key).1.copy) stable)
            (g.edgeList ro stable (V.items ++ [key]) key) R with _ | ⟨R', _ | err⟩ <;>
          rcases hy : forEdgesL (fun edge results =>
            g.visitSkipL ro stable fuel edge results (V.items ++ [key]))
            (g.edgeList ro stable (V.items ++ [key]) key) R.items with _ | ⟨r', _ | c⟩ <;>
          rw [hx, hy] at hloop <;> simp only [Refines, Option.map] at hloop ⊢
        · obtain ⟨h1, h2, -⟩ := hloop
          subst h2
          exact ⟨(add_items h1 key).2, (add_items h1 key).1, trivial⟩
        · exact absurd hloop.2.2 (by simp)
        · exact absurd hloop.2.2 (by simp)
        · exact hloop

theorem visitSkip_err_msg (g : Graph Key) (ro : RangeOrder Key) (stable : Bool) :
    ∀ (fuel : Nat) (key : Key) (R : orderedset Key) (V : Option (orderedset Key))
      (R' : orderedset Key) (err : CycleError Key),
      g.visitSkip ro fuel key R V stable = some (R', some err) →
      err.msg = "cycle error: " ++ stringsJoin (err.cycle.map Sprintf.sprint) " -> " := by
  intro fuel
  induction fuel with
  | zero => intro key R V R' err h; simp [Graph.visitSkip] at h
  | succ fuel ih =>
    intro key R V R' err h
    rw [Graph.visitSkip] at h
    by_cases hi : R.index key ≠ -1
    · simp [hi] at h
    · simp only [hi, if_false] at h
      by_cases hb : (!((V.getD newOrderedSet).add key).2) = true
      · simp only [hb, if_true, Option.some.injEq, Prod.mk.injEq] at h
        obtain ⟨-, rfl⟩ := h
        rfl
      · simp only [hb, if_false] at h
        rcases hx : forEdges (fun edge results => g.visitSkip ro fuel edge results
            (some ((V.getD newOrderedSet).add key).1.copy) stable)
            (if stable = true then List.insertionSort (fun x1 x2 => x1 ≤ x2)
              ((g.node key).edges ro ((V.getD newOrderedSet).add key).1.items)
            else (g.node key).edges ro ((V.getD newOrderedSet).add key).1.items) R
          with _ | ⟨R1, _ | err1⟩ <;> rw [hx] at h <;> simp at h
        obtain ⟨-, rfl⟩ := h
        exact forEdges_err
          (fun err =>
            err.msg = "cycle error: " ++ stringsJoin (err.cycle.map Sprintf.sprint) " -> ")
          _ R R1 err1 (fun e _ R0 R0' err0 h0 => ih e R0 _ R0' err0 h0) hx

theorem doTopSortSkip_eq (g : Graph Key) (ro : RangeOrder Key) (key : Key) (stable : Bool) :
    g.doTopSortSkip ro key stable = g.doTopSort ro key stable := by
  have href := visit_refines g ro stable g.fuel key newOrderedSet none newOrderedSet_wf
    (fun P hP => by cases hP)
  have hrefS := visitSkip_refines g ro stable g.fuel key newOrderedSet none newOrderedSet_wf
    (fun P hP => by cases hP)
  simp only [Option.getD_none] at href hrefS
  have hitems : (newOrderedSet : orderedset Key).items = [] := rfl
  rw [hitems] at href hrefS
  unfold Graph.doTopSortSkip Graph.doTopSort
  rcases hx : g.visit ro g.fuel key newOrderedSet none stable with _ | ⟨R, e⟩
  · exact absurd hx (visit_ne_none g ro key stable)
  · rw [hx] at href
    rcases hy : g.visitL ro stable g.fuel key [] [] with _ | ⟨r, c⟩ <;> rw [hy] at href
    · exact href.elim
    · obtain ⟨-, h2, h3⟩ := href
      have hskip := visitL_skip g ro stable g.fuel key [] [] (r, c)
        (fun u hu => by simp at hu) (fun p hp => by simp at hp) hy
      rw [hskip] at hrefS
      rcases hz : g.visitSkip ro g.fuel key newOrderedSet none stable with _ | ⟨R', e'⟩ <;>
        rw [hz] at hrefS
      · exact hrefS.elim
      · obtain ⟨-, k2, k3⟩ := hrefS
        rw [← h3] at k3
        cases e with
        | none =>
          cases e' with
          | none => simp [k2, h2]
          | some err' => simp at k3
        | some err =>
          cases e' with
          | none => simp at k3
          | some err' =>
            have hc : err'.cycle = err.cycle := by simpa using k3
            have hm := visit_err_msg g ro stable g.fuel key newOrderedSet none R err hx
            have hm' := visitSkip_err_msg g ro stable g.fuel key newOrderedSet none R' err' hz
            have herr : err' = err := by
              cases err with
              | mk c1 m1 =>
                cases err' with
                | mk c2 m2 =>
                  simp only at hc hm hm'
                  subst hc
                  rw [hm, hm']
            simp [herr]

/-- C14. The fast path for finished keys changes nothing that can be observed: with
`visitSkip`, which is `visit` returning success at once for a key that is already in the
results accumulator, `TopSort` and `StableTopSort` return, for every graph, start key and
range order, exactly the sequence or the cycle error that they return with `visit`. -/
theorem skip_finished_equivalent (g : Graph Key) (ro : RangeOrder Key) (key : Key) :
    g.TopSortSkip ro key = g.TopSort ro key ∧
      g.StableTopSortSkip ro key = g.StableTopSort ro key :=
  ⟨doTopSortSkip_eq g ro key false, doTopSortSkip_eq g ro key true⟩

end SkipRefinement

/-- The two traversals on a graph where a finished key is met again, `c` below both `b` and
`a`, and on a graph with a cycle behind a finished key. -/
theorem skip_finished_scenario :
    (ofEdges [("a", "c"), ("a", "b"), ("b", "c"), ("c", "d")]).TopSortSkip RangeOrder.stored "a"
        = some (["d", "c", "b", "a"], none) ∧
      (ofEdges [("a", "c"), ("a", "b"), ("b", "c"), ("c", "d")]).TopSort RangeOrder.stored "a"
        = some (["d", "c", "b", "a"], none) ∧
      (ofEdges [("a", "b"), ("c", "a"), ("a", "c")]).TopSortSkip RangeOrder.reversed "a"
        = (ofEdges [("a", "b"), ("c", "a"), ("a", "c")]).TopSort RangeOrder.reversed "a" := by
  decide

/-! ## Sorting leaves the graph as it is -/

section Frame

variable [LE Key] [DecidableRel (fun a b : Key => a ≤ b)] [Sprintf Key]

theorem forEdgesS_eq (g : Graph Key)
    (fS : Key → Graph Key → orderedset Key → Option (StateResult Key))
    (f : Key → orderedset Key → Option (VisitResult Key))
    (hf : ∀ e R, fS e g R = (f e R).map (fun x => (g, x))) :
    ∀ (es : List Key) (R : orderedset Key),
      forEdgesS fS es g R = (forEdges f es R).map (fun x => (g, x)) := by
  intro es
  induction es with
  | nil => intro R; rfl
  | cons e es ih =>
    intro R
    simp only [forEdgesS, forEdges, hf e R]
    rcases hx : f e R with _ | ⟨R1, _ | err⟩
    · rfl
    · simp only [Option.map_some']
      exact ih R1
    · rfl

theorem visitS_eq (ro : RangeOrder Key) (g : Graph Key) (stable : Bool) :
    ∀ (fuel : Nat) (key : Key) (R : orderedset Key) (V : Option (orderedset Key)),
      Graph.visitS ro fuel g key R V stable
        = (g.visit ro fuel key R V stable).map (fun x => (g, x)) := by
  intro fuel
  induction fuel with
  | zero => intro key R V; rfl
  | succ fuel ih =>
    intro key R V
    rw [Graph.visitS, Graph.visit]
    by_cases hb : (!((V.getD newOrderedSet).add key).2) = true
    · simp only [hb, if_true]
      rfl
    · simp only [hb, if_false, Graph.readNode]
      rw [forEdgesS_eq g
        (fun edge g results => Graph.visitS ro fuel g edge results
          (some ((V.getD newOrderedSet).add key).1.copy) stable)
        (fun edge results => g.visit ro fuel edge results
          (some ((V.getD newOrderedSet).add key).1.copy) stable)
        (fun e R0 => ih e R0 _)]
      rcases hx : forEdges (fun edge results => g.visit ro fuel edge results
          (some ((V.getD newOrderedSet).add key).1.copy) stable)
          (if stable = true then List.insertionSort (fun x1 x2 => x1 ≤ x2)
            ((g.node key).edges ro ((V.getD newOrderedSet).add key).1.items)
          else (g.node key).edges ro ((V.getD newOrderedSet).add key).1.items) R
        with _ | ⟨R1, _ | err⟩ <;> rfl

theorem doTopSortS_eq (g : Graph Key) (ro : RangeOrder Key) (key : Key) (stable : Bool) :
    ∃ out, g.doTopSortS ro key stable = some (g, out) ∧
      g.doTopSort ro key stable = some out := by
  unfold Graph.doTopSortS Graph.doTopSort
  rw [visitS_eq]
  rcases hx : g.visit ro g.fuel key newOrderedSet none stable with _ | ⟨R, _ | err⟩
  · exact absurd hx (visit_ne_none g ro key stable)
  · exact ⟨(R.items, none), rfl, rfl⟩
  · exact ⟨([], some err), rfl, rfl⟩

/-- C17. Sorting does not modify the graph: for every graph, key and range order, `TopSort`
and `StableTopSort`, read as steps that hand on the graph, return with the graph they were
called on (same node set, same edge set for every node), whether they return a sequence or
an error, together with the results of the sorts that do not hand on the graph. -/
theorem sort_preserves_graph (g : Graph Key) (ro : RangeOrder Key) (key : Key) :
    (∃ out, g.TopSortS ro key = some (g, out) ∧ g.TopSort ro key = some out) ∧
      ∃ out, g.StableTopSortS ro key = some (g, out) ∧ g.StableTopSort ro key = some out :=
  ⟨doTopSortS_eq g ro key false, doTopSortS_eq g ro key true⟩

end Frame

/-- Sorting from an absent key does not create it, and sorting in stable mode leaves the
stored edge map of `a` in its stored order. -/
theorem sort_frame_scenario :
    ((ofEdges [("a", "b")]).TopSortS RangeOrder.stored "q").map
        (fun x => (x.1.ContainsNode "q", x.2)) = some (false, ["q"], none) ∧
      ((ofEdges [(1, 3), (1, 2)]).StableTopSortS RangeOrder.stored 1).map
        (fun x => ((x.1.node 1).keys, x.2)) = some ([2, 3], [2, 3, 1], none) ∧
      ((ofEdges [(1, 2), (1, 3)]).StableTopSortS RangeOrder.stored 1).map
        (fun x => ((x.1.node 1).keys, x.2)) = some ([3, 2], [2, 3, 1], none) := by
  decide

/-- Instance of C18 with numbered keys, starting from the empty graph. -/
theorem construction_commutes_witness :
    (((NewGraph : Graph Nat).AddEdge 1 2).AddEdge 3 4).Same
        (((NewGraph : Graph Nat).AddEdge 3 4).AddEdge 1 2) ∧
      (((NewGraph : Graph Nat).AddNode 1).AddNode 2).Same
        (((NewGraph : Graph Nat).AddNode 2).AddNode 1) ∧
      (((NewGraph : Graph Nat).AddNode 1).AddEdge 3 4).Same
        (((NewGraph : Graph Nat).AddEdge 3 4).AddNode 1) ∧
      ∀ (g1 g2 : Graph Nat) (ro1 ro2 : RangeOrder Nat) (key : Nat),
        g1.Same g2 → g1.StableTopSort ro1 key = g2.StableTopSort ro2 key :=
  construction_commutes (NewGraph : Graph Nat) 1 2 3 4

end topsort
